import Mathlib

/-!
Verification of the Dot-Matrix font editor's glyph codec, parser, import
assembler and format converters, as a shallow embedding of the TypeScript
sources (src/services/fontParser.ts, src/components/ImportFontModal.tsx,
src/App.tsx / fontGenerator).

JavaScript numbers that the code treats as integers are modelled as `Int`
(the array parser can produce negative values); booleans as `Bool`;
bitmaps as `List (List Bool)` (rows of columns); thrown exceptions as
`Except String`.
-/

deriving instance DecidableEq for Except

namespace DotMatrix

/-- JS `(b >> k) & 1` for `k < 31`: the operand is converted with ToInt32
(wrap modulo 2^32, two's complement), so bit `k` of the result is bit `k`
of `b mod 2^32`. -/
def jsBit (b : Int) (k : Nat) : Bool :=
  Nat.testBit (b % (2 ^ 32 : Int)).toNat k

/-- JS `Array.prototype.slice(s, e)`: negative indices count from the end,
then both are clamped to `[0, length]` and the elements in `[start, end)`
are returned. -/
def jsSlice (l : List α) (s e : Int) : List α :=
  let len : Int := l.length
  let start := if s < 0 then max (len + s) 0 else min s len
  let stop := if e < 0 then max (len + e) 0 else min e len
  (l.take stop.toNat).drop start.toNat

/-- Column byte of `bitmap` at column `c`: the inner loop of
`bitmapToBytes` (ImportFontModal.tsx lines 17-25) and of the identical
byte-packing loop in `generateChars` (fontGenerator lines 1094-1102):
`byte |= 1 << (height - 1 - r)` for every set row `r`, with JS optional
chaining `bitmap[r]?.[c]` rendered as `getD`. -/
def colByte (bitmap : List (List Bool)) (height c : Nat) : Nat :=
  (List.range height).foldl
    (fun byte r =>
      if (bitmap.getD r []).getD c false then byte ||| (1 <<< (height - 1 - r)) else byte)
    0

/-- Mirrors `bitmapToBytes` (src/components/ImportFontModal.tsx lines
14-27): one byte per column, `width = bitmap[0]?.length || 0`. The bytes
are natural numbers below `2 ^ height`, returned as JS numbers (`Int`). -/
def bitmapToBytes (bitmap : List (List Bool)) (height : Nat) : List Int :=
  (List.range (bitmap.headD []).length).map
    (fun c => ((colByte bitmap height c : Nat) : Int))

/-- Mirrors `bytesToBitmap` (src/services/fontParser.ts lines 15-29).
`new Array(width)` throws a RangeError ("Invalid array length") for a
negative width as soon as one row is built (widths at or above 2^32,
which would also throw, are not modelled); afterwards heights above 8 are
rejected; otherwise row `r`, column `c` is `(bytes[c] || 0) >> (height-1-r) & 1`
with a missing byte read as `0`. -/
def bytesToBitmap (bytes : List Int) (width : Int) (height : Nat) :
    Except String (List (List Bool)) :=
  if 0 < height ∧ width < 0 then .error "Invalid array length"
  else if height > 8 then .error "Cannot convert bytes to bitmap for height > 8."
  else .ok ((List.range height).map (fun r =>
    (List.range width.toNat).map (fun c => jsBit (bytes.getD c 0) (height - 1 - r))))

/-! Helper lemmas about the bit-packing fold. -/

theorem foldl_setbits_testBit (g : Nat → Bool) (p : Nat → Nat) (l : List Nat)
    (acc : Nat) (k : Nat) :
    Nat.testBit (l.foldl (fun byte r => if g r then byte ||| (1 <<< p r) else byte) acc) k
      = (Nat.testBit acc k || l.any (fun r => g r && decide (p r = k))) := by
  induction l generalizing acc with
  | nil => simp
  | cons r t ih =>
      simp only [List.foldl_cons, List.any_cons]
      rw [ih]
      by_cases hg : g r
      · simp only [hg, if_pos, Nat.testBit_or, Nat.one_shiftLeft, Nat.testBit_two_pow,
          Bool.true_and]
        cases Nat.testBit acc k <;> cases h : decide (p r = k) <;> simp
      · simp [hg]

theorem foldl_setbits_lt (g : Nat → Bool) (p : Nat → Nat) (l : List Nat)
    (acc h : Nat) (hacc : acc < 2 ^ h) (hp : ∀ r ∈ l, p r < h) :
    l.foldl (fun byte r => if g r then byte ||| (1 <<< p r) else byte) acc < 2 ^ h := by
  induction l generalizing acc with
  | nil => simpa using hacc
  | cons r t ih =>
      simp only [List.foldl_cons]
      apply ih
      · by_cases hg : g r
        · simp only [hg, if_pos]
          apply Nat.or_lt_two_pow hacc
          rw [Nat.one_shiftLeft]
          exact Nat.pow_lt_pow_right (by norm_num) (hp r (by simp))
        · simpa [hg] using hacc
      · exact fun r' hr' => hp r' (by simp [hr'])

theorem testBit_colByte (bitmap : List (List Bool)) (height c r : Nat) (hr : r < height) :
    Nat.testBit (colByte bitmap height c) (height - 1 - r)
      = (bitmap.getD r []).getD c false := by
  unfold colByte
  rw [foldl_setbits_testBit]
  simp only [Nat.zero_testBit, Bool.false_or]
  cases hbit : (bitmap.getD r []).getD c false with
  | true =>
      rw [List.any_eq_true]
      refine ⟨r, List.mem_range.mpr hr, ?_⟩
      rw [hbit]
      simp
  | false =>
      rw [List.any_eq_false]
      intro r' hr'
      rw [List.mem_range] at hr'
      by_cases he : height - 1 - r' = height - 1 - r
      · have hrr : r' = r := by omega
        rw [hrr, hbit]
        simp
      · simp [he]

theorem colByte_lt (bitmap : List (List Bool)) (height c : Nat) :
    colByte bitmap height c < 2 ^ height := by
  cases height with
  | zero => simp [colByte]
  | succ n =>
      apply foldl_setbits_lt
      · exact Nat.pos_pow_of_pos _ (by norm_num)
      · intro r hr
        omega

theorem range_map_getD (l : List α) (d : α) :
    (List.range l.length).map (fun i => l.getD i d) = l := by
  induction l with
  | nil => simp
  | cons a t ih =>
      rw [List.length_cons, List.range_succ_eq_map, List.map_cons, List.map_map]
      have h2 : ((fun i => (a :: t).getD i d) ∘ (· + 1)) = fun i => t.getD i d := by
        funext i
        simp [List.getD_cons_succ]
      rw [List.getD_cons_zero, h2, ih]

theorem bitmapToBytes_getD (bitmap : List (List Bool)) (height c : Nat)
    (hc : c < (bitmap.headD []).length) :
    (bitmapToBytes bitmap height).getD c 0 = ((colByte bitmap height c : Nat) : Int) := by
  unfold bitmapToBytes
  rw [List.getD_eq_getElem?_getD, List.getElem?_map, List.getElem?_range hc]
  rfl

theorem jsBit_ofNat (n : Nat) (k : Nat) (hn : n < 2 ^ 32) :
    jsBit (n : Int) k = Nat.testBit n k := by
  unfold jsBit
  have h1 : ((n : Int) % (2 ^ 32 : Int)) = ((n % 2 ^ 32 : Nat) : Int) := by
    push_cast
    rfl
  rw [h1, Nat.mod_eq_of_lt hn]
  simp

/-- C1: for every rectangular boolean bitmap with `height` rows
(`1 ≤ height ≤ 8`) and `width` columns, decoding the encoded column
bytes reproduces the bitmap:
`bytesToBitmap (bitmapToBytes bitmap height) width height = ok bitmap`. -/
theorem bitmap_bytes_roundtrip (bitmap : List (List Bool)) (height width : Nat)
    (h1 : 1 ≤ height) (h8 : height ≤ 8)
    (hlen : bitmap.length = height) (hrect : ∀ row ∈ bitmap, row.length = width) :
    bytesToBitmap (bitmapToBytes bitmap height) (width : Int) height = .ok bitmap := by
  have hwidth0 : (bitmap.headD []).length = width := by
    cases bitmap with
    | nil => simp at hlen; omega
    | cons row t => exact hrect row (by simp)
  unfold bytesToBitmap
  rw [if_neg (by simp), if_neg (by omega)]
  congr 1
  have htonat : ((width : Int)).toNat = width := by simp
  rw [htonat]
  have hrow : ∀ r < height,
      (List.range width).map
          (fun c => jsBit ((bitmapToBytes bitmap height).getD c 0) (height - 1 - r))
        = bitmap.getD r [] := by
    intro r hrow_lt
    have hrlt : r < bitmap.length := by omega
    have hrlen : (bitmap.getD r []).length = width := by
      have hmem : bitmap.getD r [] ∈ bitmap := by
        rw [List.getD_eq_getElem?_getD, List.getElem?_eq_getElem hrlt]
        exact List.getElem_mem hrlt
      exact hrect _ hmem
    have hexp := range_map_getD (bitmap.getD r []) false
    rw [hrlen] at hexp
    conv_rhs => rw [← hexp]
    apply List.map_congr_left
    intro c hc
    rw [List.mem_range] at hc
    rw [bitmapToBytes_getD bitmap height c (by omega)]
    rw [jsBit_ofNat _ _ (lt_trans (colByte_lt bitmap height c)
      (Nat.pow_lt_pow_right (by norm_num) (by omega)))]
    exact testBit_colByte bitmap height c r hrow_lt
  calc (List.range height).map (fun r =>
          (List.range width).map
            (fun c => jsBit ((bitmapToBytes bitmap height).getD c 0) (height - 1 - r)))
      = (List.range height).map (fun r => bitmap.getD r []) := by
        apply List.map_congr_left
        intro r hr
        exact hrow r (List.mem_range.mp hr)
    _ = bitmap := by rw [← hlen]; exact range_map_getD bitmap []

/-- Concrete instance of the round-trip theorem (height 2, width 1). -/
theorem bitmap_bytes_roundtrip_witness :
    bytesToBitmap (bitmapToBytes [[true], [false]] 2) (1 : Int) 2 = .ok [[true], [false]] :=
  bitmap_bytes_roundtrip [[true], [false]] 2 1 (by decide) (by decide) (by decide)
    (by decide)

/-- C10: `bytesToBitmap` is total for heights in `[1, 8]`: it returns a
matrix of exactly `height` rows and `width` columns, and any column whose
byte is missing (the byte list being shorter than `width`) decodes to an
all-false column. -/
theorem bytesToBitmap_total (bytes : List Int) (width height : Nat)
    (h1 : 1 ≤ height) (h8 : height ≤ 8) :
    ∃ m, bytesToBitmap bytes (width : Int) height = .ok m
      ∧ m.length = height
      ∧ (∀ row ∈ m, row.length = width)
      ∧ (∀ r c, bytes.length ≤ c → (m.getD r []).getD c false = false) := by
  refine ⟨(List.range height).map (fun r =>
    (List.range width).map (fun c => jsBit (bytes.getD c 0) (height - 1 - r))), ?_, ?_, ?_, ?_⟩
  · unfold bytesToBitmap
    rw [if_neg (by simp), if_neg (by omega)]
    simp
  · simp
  · intro row hrow
    rw [List.mem_map] at hrow
    obtain ⟨r, _, hr⟩ := hrow
    simp [← hr]
  · intro r c hc
    by_cases hr : r < height
    · have hget : ((List.range height).map (fun r =>
          (List.range width).map (fun c => jsBit (bytes.getD c 0) (height - 1 - r)))).getD r []
            = (List.range width).map (fun c => jsBit (bytes.getD c 0) (height - 1 - r)) := by
        rw [List.getD_eq_getElem?_getD, List.getElem?_map, List.getElem?_range hr]
        rfl
      rw [hget]
      by_cases hcw : c < width
      · have hzero : (bytes.getD c 0) = 0 := List.getD_eq_default _ _ hc
        rw [List.getD_eq_getElem?_getD, List.getElem?_map, List.getElem?_range hcw]
        rw [Option.map_some', Option.getD_some, hzero]
        simp [jsBit]
      · rw [List.getD_eq_getElem?_getD]
        have hnone : ((List.range width).map
            (fun c => jsBit (bytes.getD c 0) (height - 1 - r)))[c]? = none := by
          rw [List.getElem?_eq_none_iff]
          simpa using Nat.le_of_not_lt hcw
        rw [hnone]
        rfl
    · have hnil : ((List.range height).map (fun r =>
          (List.range width).map (fun c => jsBit (bytes.getD c 0) (height - 1 - r)))).getD r []
            = [] := by
        apply List.getD_eq_default
        simpa using Nat.le_of_not_lt hr
      rw [hnil]
      rfl

/-- Concrete instance of totality: an empty byte list still decodes to an
8-row, 2-column all-false matrix. -/
theorem bytesToBitmap_total_witness :
    ∃ m, bytesToBitmap [] (2 : Int) 8 = .ok m
      ∧ m.length = 8
      ∧ (∀ row ∈ m, row.length = 2)
      ∧ (∀ r c, ([] : List Int).length ≤ c → (m.getD r []).getD c false = false) :=
  bytesToBitmap_total [] 2 8 (by decide) (by decide)

/-! The array-literal text parser (`parseArrayString`,
src/services/fontParser.ts lines 32-113).  The regex-driven phases are
rendered as explicit left-to-right scanners; scanners that recurse on a
non-structural suffix take the list length as structural fuel (each step
consumes at least one character, so the fuel never runs out). -/

/-- JS line terminators (`.` in a regex matches anything but these, and a
multiline `$` matches just before one). -/
def isLineTerm (c : Char) : Bool :=
  c == '\n' || c == '\r' || c == '\u2028' || c == '\u2029'

/-- Scan for the closing `*/` of a block comment and return the remaining
characters; `none` when the comment is unterminated (the lazy
`\/\*[\s\S]*?\*\/` alternative then fails to match). -/
def dropBlock : List Char → Option (List Char)
  | [] => none
  | [_] => none
  | c :: d :: rest => if c = '*' ∧ d = '/' then some rest else dropBlock (d :: rest)

/-- One step of the comment-stripping replace
`text.replace(/\/\*[\s\S]*?\*\/|(\/\/|#).*$/gm, '')`: at each position,
first try a (lazy, terminated) block comment, then a `//` or `#` line
comment running to just before the next line terminator; on a match, drop
it and continue after it, otherwise emit the character. -/
def stripCommentsGo : Nat → List Char → List Char
  | 0, _ => []
  | _ + 1, [] => []
  | fuel + 1, c :: rest =>
    if c = '/' then
      match rest with
      | [] => [c]
      | d :: rest2 =>
        if d = '*' then
          match dropBlock rest2 with
          | some rest3 => stripCommentsGo fuel rest3
          | none => c :: stripCommentsGo fuel rest
        else if d = '/' then
          stripCommentsGo fuel (rest2.dropWhile (fun x => !isLineTerm x))
        else
          c :: stripCommentsGo fuel rest
    else if c = '#' then
      stripCommentsGo fuel (rest.dropWhile (fun x => !isLineTerm x))
    else
      c :: stripCommentsGo fuel rest

def stripComments (l : List Char) : List Char := stripCommentsGo l.length l

/-- JS `indexOf` as an optional index. -/
def firstIdxOf (c : Char) (l : List Char) : Option Nat :=
  l.findIdx? (fun x => x == c)

/-- JS `lastIndexOf` as an optional index. -/
def lastIdxOf (c : Char) (l : List Char) : Option Nat :=
  (l.reverse.findIdx? (fun x => x == c)).map (fun i => l.length - 1 - i)

/-- Step 2 of `parseArrayString` (lines 40-56): locate the body between
the earliest opening bracket and the last closing bracket; if both are
present and properly ordered, restrict to the substring strictly between
them, otherwise keep the whole text. -/
def bracketBody (content : List Char) : List Char :=
  let firstBracket := firstIdxOf '\x7b' content
  let firstSquare := firstIdxOf '[' content
  let start : Option Nat :=
    match firstBracket, firstSquare with
    | some a, some b => some (min a b)
    | some a, none => some a
    | none, some b => some b
    | none, none => none
  let lastBracket := lastIdxOf '\x7d' content
  let lastSquare := lastIdxOf ']' content
  let stop : Option Nat :=
    match lastBracket, lastSquare with
    | some a, some b => some (max a b)
    | some a, none => some a
    | none, some b => some b
    | none, none => none
  match start, stop with
  | some s, some e => if s < e then (content.drop (s + 1)).take (e - (s + 1)) else content
  | _, _ => content

def isHexDigitChar (c : Char) : Bool :=
  c.isDigit || (decide ('a' ≤ c) && decide (c ≤ 'f')) || (decide ('A' ≤ c) && decide (c ≤ 'F'))

def isBinDigitChar (c : Char) : Bool := c == '0' || c == '1'

/-- Attempt the token regex
`0x[0-9a-fA-F]+|0b[01]+|-?\d+|'(\\.|[^'])'` at the current position,
trying the alternatives in order with greedy digit runs; returns the
matched token and the remaining input. -/
def tryToken : List Char → Option (List Char × List Char)
  | [] => none
  | c :: rest =>
    if c = '0' then
      match rest with
      | 'x' :: r2 =>
          let digits := r2.takeWhile isHexDigitChar
          if digits = [] then some (['0'], rest)
          else some ('0' :: 'x' :: digits, r2.dropWhile isHexDigitChar)
      | 'b' :: r2 =>
          let digits := r2.takeWhile isBinDigitChar
          if digits = [] then some (['0'], rest)
          else some ('0' :: 'b' :: digits, r2.dropWhile isBinDigitChar)
      | _ =>
          some ((c :: rest).takeWhile Char.isDigit, (c :: rest).dropWhile Char.isDigit)
    else if c.isDigit then
      some ((c :: rest).takeWhile Char.isDigit, (c :: rest).dropWhile Char.isDigit)
    else if c = '-' then
      match rest with
      | d :: _ =>
          if d.isDigit then some ('-' :: rest.takeWhile Char.isDigit, rest.dropWhile Char.isDigit)
          else none
      | [] => none
    else if c = '\'' then
      match rest with
      | '\\' :: d :: '\'' :: r3 =>
          if isLineTerm d then none else some (['\'', '\\', d, '\''], r3)
      | '\\' :: '\'' :: r3 => some (['\'', '\\', '\''], r3)
      | b :: '\'' :: r3 => if b = '\'' then none else some (['\'', b, '\''], r3)
      | _ => none
    else none

/-- Global scan of `content.match(tokenRegex)`: at each position try the
token alternation; on a match continue after it, otherwise advance one
character. -/
def findTokensGo : Nat → List Char → List (List Char)
  | 0, _ => []
  | _ + 1, [] => []
  | fuel + 1, c :: rest =>
    match tryToken (c :: rest) with
    | some (tok, rest2) => tok :: findTokensGo fuel rest2
    | none => findTokensGo fuel rest

def findTokens (l : List Char) : List (List Char) := findTokensGo l.length l

def hexDigitVal (c : Char) : Nat :=
  if c.isDigit then c.toNat - '0'.toNat
  else if decide ('a' ≤ c) && decide (c ≤ 'f') then c.toNat - 'a'.toNat + 10
  else c.toNat - 'A'.toNat + 10

def hexValue (l : List Char) : Nat := l.foldl (fun acc c => acc * 16 + hexDigitVal c) 0

def binValue (l : List Char) : Nat :=
  l.foldl (fun acc c => acc * 2 + (if c = '1' then 1 else 0)) 0

def decValue (l : List Char) : Nat :=
  l.foldl (fun acc c => acc * 10 + (c.toNat - '0'.toNat)) 0

/-- Resolution of a character-literal body (the `switch` at
src/services/fontParser.ts lines 75-98): standard escapes, the hex-escape
branch (whose `length > 2` test can never hold for the one-escape bodies
the token regex admits, falling back to the code of `x`), an unrecognized
escape falling back to the escaped character's own code, and a plain
character's own code.  `none` models a NaN char code (dropped by the
`!isNaN` filter). -/
def charLiteralCode (charContent : List Char) : Option Int :=
  match charContent with
  | '\\' :: d :: rest =>
    match d with
    | 'n' => some 10
    | 'r' => some 13
    | 't' => some 9
    | '\'' => some 39
    | '"' => some 34
    | '\\' => some 92
    | '0' => some 0
    | 'x' =>
        match rest with
        | [] => some 120
        | _ =>
            let digits := rest.takeWhile isHexDigitChar
            if digits = [] then some 120
            else some ((hexValue digits : Nat) : Int)
    | _ => some ((d.toNat : Nat) : Int)
  | c :: _ => some ((c.toNat : Nat) : Int)
  | [] => none

/-- `Number(token)` on the numeric token shapes the regex can produce. -/
def numericValue (token : List Char) : Option Int :=
  match token with
  | '0' :: 'x' :: ds => some ((hexValue ds : Nat) : Int)
  | '0' :: 'b' :: ds => some ((binValue ds : Nat) : Int)
  | '-' :: ds => some (-((decValue ds : Nat) : Int))
  | ds => some ((decValue ds : Nat) : Int)

/-- The per-token branch of the `for (const token of matches)` loop
(lines 69-110): a token delimited by single quotes is decoded as a
character literal, anything else through `Number`; NaN results are
dropped. -/
def tokenToNum (token : List Char) : Option Int :=
  if token.headD ' ' = '\'' ∧ token.getLastD ' ' = '\'' then
    charLiteralCode ((token.drop 1).dropLast)
  else
    numericValue token

/-- Mirrors `parseArrayString` (src/services/fontParser.ts lines
32-113): strip comments, restrict to the bracketed body, tokenize, and
evaluate each token. -/
def parseArrayString (text : String) : List Int :=
  if text = "" then []
  else
    let content := stripComments text.data
    let body := bracketBody content
    (findTokens body).filterMap tokenToNum

/-- C4: the three specified example equations for the array parser. -/
theorem parseArrayString_examples :
    parseArrayString "\x7b0x1A, 0x2B, /* x */ 0x3C\x7d" = [26, 43, 60]
      ∧ parseArrayString "buf[] = \x7b'A','\\n',10\x7d" = [65, 10, 10]
      ∧ parseArrayString "" = [] := by
  refine ⟨?_, ?_, ?_⟩ <;> decide

/-- C5: the standard character-literal escapes resolve to their specified
codes and an unrecognized escape falls back to the escaped character's
own code; the hex escape does not behave as specified: the six-character
input '\x41' parses to [41] (the digits match as a decimal number because
the token regex only admits one-character escape bodies), not [65]. -/
theorem parseArrayString_char_escapes :
    parseArrayString "'\\n'" = [10] ∧ parseArrayString "'\\r'" = [13]
      ∧ parseArrayString "'\\t'" = [9] ∧ parseArrayString "'\\''" = [39]
      ∧ parseArrayString "'\\\"'" = [34] ∧ parseArrayString "'\\\\'" = [92]
      ∧ parseArrayString "'\\0'" = [0] ∧ parseArrayString "'\\q'" = [113]
      ∧ parseArrayString "'\\x41'" = [41] := by
  refine ⟨?_, ?_, ?_, ?_, ?_, ?_, ?_, ?_, ?_⟩ <;> decide

/-! Glyph records and the font import assembler
(`parseImportedData`, src/services/fontParser.ts lines 116-216). -/

/-- A glyph record (`GeneratedChar` in src/types.ts): the character, its
code (`charCodeAt(0)` / `codePointAt(0)`), the boolean bitmap (rows of
columns) and the packed column bytes. -/
structure GeneratedChar where
  char : Char
  ascii : Nat
  bitmap : List (List Bool)
  bytes : List Int
deriving DecidableEq, Inhabited

/-- The partial font options recovered by the importer. -/
structure ParsedFontOptions where
  width : Int
  height : Int
  characterSet : String
  dynamicWidth : Bool
  charSpacing : Int
deriving DecidableEq, Inhabited

structure ParsedFontData where
  fontData : List GeneratedChar
  fontOptions : ParsedFontOptions
deriving DecidableEq, Inhabited

/-- The raw import form (`ImportOptions` in src/services/fontParser.ts
lines 4-12). -/
structure ImportOptions where
  rawData : String
  rawWidths : String
  rawOffsets : String
  characterSet : String
  charHeight : Int
  charWidth : Int
  isDynamic : Bool

/-- JS `[...new Set(characterSet.split(''))]`: first-occurrence-order
deduplication. -/
def uniqueFirst (l : List Char) : List Char :=
  l.foldl (fun acc c => if c ∈ acc then acc else acc ++ [c]) []

/-- The dynamic-mode per-character loop of `parseImportedData` (lines
140-160): for each character take its width and offset, fail when
`offset + width` exceeds the data length, otherwise slice the data and
decode the bitmap.  The final catch-all is unreachable: the caller only
enters the loop after checking that the three lists have equal length. -/
def dynamicGlyphs (dataBytes : List Int) (charHeight : Nat) :
    List Char → List Int → List Int → Except String (List GeneratedChar)
  | [], _, _ => .ok []
  | ch :: cs, w :: ws, off :: offs =>
      if off + w > (dataBytes.length : Int) then
        .error "offset+width exceeds the data array bounds"
      else
        match bytesToBitmap (jsSlice dataBytes off (off + w)) w charHeight with
        | .error e => .error e
        | .ok bitmap =>
          match dynamicGlyphs dataBytes charHeight cs ws offs with
          | .error e => .error e
          | .ok rest =>
              .ok (⟨ch, ch.toNat, bitmap, jsSlice dataBytes off (off + w)⟩ :: rest)
  | _ :: _, _, _ => .error "internal: width and offset arrays exhausted"

/-- The fixed-mode per-character loop of `parseImportedData` (lines
191-203): character `i` receives the slice
`data[i*width .. i*width + width)`. -/
def fixedGlyphs (dataBytes : List Int) (charWidth : Int) (charHeight : Nat) :
    List Char → Nat → Except String (List GeneratedChar)
  | [], _ => .ok []
  | ch :: cs, i =>
      match bytesToBitmap
          (jsSlice dataBytes ((i : Int) * charWidth) ((i : Int) * charWidth + charWidth))
          charWidth charHeight with
      | .error e => .error e
      | .ok bitmap =>
        match fixedGlyphs dataBytes charWidth charHeight cs (i + 1) with
        | .error e => .error e
        | .ok rest =>
            .ok (⟨ch, ch.toNat, bitmap,
              jsSlice dataBytes ((i : Int) * charWidth) ((i : Int) * charWidth + charWidth)⟩
              :: rest)

/-- Mirrors `parseImportedData` (src/services/fontParser.ts lines
116-216).  The dynamic error messages keep the source's meaning but
elide the interpolated numbers. -/
def parseImportedData (o : ImportOptions) : Except String ParsedFontData :=
  let uniqueChars := uniqueFirst o.characterSet.data
  if o.charHeight ≤ 0 ∨ o.charHeight > 8 then
    .error "Invalid height. Must be between 1 and 8."
  else if o.isDynamic then
    let dataBytes := parseArrayString o.rawData
    let widths := parseArrayString o.rawWidths
    let offsets := parseArrayString o.rawOffsets
    if widths.length > 0
        ∧ (uniqueChars.length ≠ widths.length ∨ uniqueChars.length ≠ offsets.length) then
      .error "Mismatch in array lengths: character set, widths, and offsets must all be the same size."
    else if widths.length = 0 ∧ uniqueChars.length > 0 then
      .error "Widths array appears to be empty or could not be parsed."
    else
      match dynamicGlyphs dataBytes o.charHeight.toNat uniqueChars widths offsets with
      | .error e => .error e
      | .ok gs =>
          let maxWidth := widths.foldl (fun m w => if w > m then w else m) 0
          .ok ⟨gs, ⟨if maxWidth > 0 then maxWidth else 8, o.charHeight, o.characterSet, true, 0⟩⟩
  else
    if o.charWidth ≤ 0 then
      .error "Invalid width. Must be a positive number for fixed-width fonts."
    else
      let dataBytes := parseArrayString o.rawData
      if dataBytes.length = 0 ∧ uniqueChars.length > 0 then
        .error "Data array is empty or could not be parsed."
      else if (dataBytes.length : Int) ≠ (uniqueChars.length : Int) * o.charWidth
          ∧ uniqueChars.length > 0 then
        .error "Data array size mismatch."
      else
        match fixedGlyphs dataBytes o.charWidth o.charHeight.toNat uniqueChars 0 with
        | .error e => .error e
        | .ok gs => .ok ⟨gs, ⟨o.charWidth, o.charHeight, o.characterSet, false, 0⟩⟩

/-- Helper for C6: a single out-of-bounds index makes the dynamic loop
fail with the out-of-bounds error, provided every width is nonnegative
(a negative width would instead abort bitmap allocation first). -/
theorem dynamicGlyphs_oob (dataBytes : List Int) (h : Nat) (h8 : h ≤ 8) :
    ∀ (cs : List Char) (ws offs : List Int),
      ws.length = cs.length → offs.length = cs.length → (∀ w ∈ ws, 0 ≤ w) →
      (∃ i, i < cs.length ∧ offs.getD i 0 + ws.getD i 0 > (dataBytes.length : Int)) →
      dynamicGlyphs dataBytes h cs ws offs = .error "offset+width exceeds the data array bounds" := by
  intro cs
  induction cs with
  | nil =>
      intro ws offs _ _ _ hex
      obtain ⟨i, hi, _⟩ := hex
      simp at hi
  | cons c ct ih =>
      intro ws offs hws hoffs hnn hex
      match ws, offs with
      | w :: wt, off :: offt =>
        simp only [dynamicGlyphs]
        by_cases h0 : off + w > (dataBytes.length : Int)
        · rw [if_pos h0]
        · rw [if_neg h0]
          have hw0 : (0 : Int) ≤ w := hnn w (by simp)
          obtain ⟨bm, hbm⟩ : ∃ bm,
              bytesToBitmap (jsSlice dataBytes off (off + w)) w h = .ok bm := by
            unfold bytesToBitmap
            rw [if_neg (by omega), if_neg (by omega)]
            exact ⟨_, rfl⟩
          rw [hbm]
          obtain ⟨i, hi, hoob⟩ := hex
          have hrec : dynamicGlyphs dataBytes h ct wt offt
              = .error "offset+width exceeds the data array bounds" := by
            apply ih wt offt (by simpa using hws) (by simpa using hoffs)
              (fun x hx => hnn x (by simp [hx]))
            cases i with
            | zero =>
                exfalso
                rw [List.getD_cons_zero, List.getD_cons_zero] at hoob
                omega
            | succ j =>
                refine ⟨j, by simpa using hi, ?_⟩
                rw [List.getD_cons_succ, List.getD_cons_succ] at hoob
                exact hoob
          rw [hrec]

/-- C6 (amended): in dynamic mode with a valid height and non-empty
character set, (1) any disagreement between the lengths of the parsed
widths, the parsed offsets and the deduplicated character set makes
`parseImportedData` fail with one of the two array-length validation
errors (the empty-widths case included); and (2) when the lengths agree
and every parsed width is nonnegative, an index whose offset plus width
exceeds the parsed data length makes it fail with the out-of-bounds
error. -/
theorem parseImportedData_dynamic_errors (o : ImportOptions)
    (hdyn : o.isDynamic = true) (h1 : 0 < o.charHeight) (h8 : o.charHeight ≤ 8)
    (hne : uniqueFirst o.characterSet.data ≠ []) :
    (¬ ((parseArrayString o.rawWidths).length = (uniqueFirst o.characterSet.data).length
        ∧ (parseArrayString o.rawOffsets).length = (uniqueFirst o.characterSet.data).length) →
      parseImportedData o
          = .error "Mismatch in array lengths: character set, widths, and offsets must all be the same size."
        ∨ parseImportedData o
          = .error "Widths array appears to be empty or could not be parsed.")
    ∧ ((parseArrayString o.rawWidths).length = (uniqueFirst o.characterSet.data).length →
       (parseArrayString o.rawOffsets).length = (uniqueFirst o.characterSet.data).length →
       (∀ w ∈ parseArrayString o.rawWidths, 0 ≤ w) →
       ∀ i, i < (uniqueFirst o.characterSet.data).length →
         (parseArrayString o.rawOffsets).getD i 0 + (parseArrayString o.rawWidths).getD i 0
             > ((parseArrayString o.rawData).length : Int) →
         parseImportedData o = .error "offset+width exceeds the data array bounds") := by
  have hlen0 : 0 < (uniqueFirst o.characterSet.data).length := by
    cases hu : uniqueFirst o.characterSet.data with
    | nil => exact absurd hu hne
    | cons a t => simp
  constructor
  · intro hmis
    unfold parseImportedData
    rw [if_neg (by omega), hdyn]
    simp only [if_true]
    by_cases hw0 : (parseArrayString o.rawWidths).length = 0
    · right
      rw [if_neg, if_pos ⟨hw0, hlen0⟩]
      push_neg
      intro hpos
      omega
    · left
      rw [if_pos]
      refine ⟨by omega, ?_⟩
      by_cases hweq : (parseArrayString o.rawWidths).length
          = (uniqueFirst o.characterSet.data).length
      · right
        have : (parseArrayString o.rawOffsets).length
            ≠ (uniqueFirst o.characterSet.data).length := fun h => hmis ⟨hweq, h⟩
        omega
      · left
        omega
  · intro hweq hoeq hnn i hi hoob
    unfold parseImportedData
    rw [if_neg (by omega), hdyn]
    simp only [if_true]
    rw [if_neg (by omega), if_neg (by omega)]
    rw [dynamicGlyphs_oob (parseArrayString o.rawData) o.charHeight.toNat (by omega)
      (uniqueFirst o.characterSet.data) (parseArrayString o.rawWidths)
      (parseArrayString o.rawOffsets) hweq hoeq hnn ⟨i, hi, hoob⟩]

/-- The concrete mismatch instance from the spec: character set "AB",
widths `[1]`, offsets `[0]`. -/
def c6WitnessOptions : ImportOptions :=
  ⟨"\x7b\x7d", "\x7b1\x7d", "\x7b0\x7d", "AB", 8, 0, true⟩

/-- Witness: the "AB"/[1]/[0] instance fails with an array-length
validation error. -/
theorem parseImportedData_dynamic_errors_witness :
    parseImportedData c6WitnessOptions
        = .error "Mismatch in array lengths: character set, widths, and offsets must all be the same size."
      ∨ parseImportedData c6WitnessOptions
        = .error "Widths array appears to be empty or could not be parsed." :=
  (parseImportedData_dynamic_errors c6WitnessOptions rfl (by decide) (by decide)
    (by decide)).1 (by decide)

/-- Input refuting C6 as stated: widths `[-1, 5]`, offsets `[0, 0]`,
data `[1]`, characters "AB". -/
def c6CounterOptions : ImportOptions :=
  ⟨"\x7b1\x7d", "\x7b-1, 5\x7d", "\x7b0, 0\x7d", "AB", 8, 0, true⟩

/-- C6 counterexample: at `c6CounterOptions` index 1 has
offset + width = 5 exceeding the data length 1, yet `parseImportedData`
fails with the RangeError raised while allocating the bitmap for the
negative width at index 0, not with the out-of-bounds error. -/
theorem parseImportedData_oob_counterexample :
    ((parseArrayString c6CounterOptions.rawOffsets).getD 1 0
        + (parseArrayString c6CounterOptions.rawWidths).getD 1 0
      > ((parseArrayString c6CounterOptions.rawData).length : Int))
    ∧ parseImportedData c6CounterOptions = .error "Invalid array length" := by
  exact ⟨by decide, by decide⟩

/-! Vertical realignment (`alignBitmap`,
src/components/ImportFontModal.tsx lines 29-67). -/

inductive AlignDir
  | top
  | bottom
deriving DecidableEq

/-- JS `bitmap[r].some(pixel => pixel)`. -/
def rowHasPixel (row : List Bool) : Bool := row.any (fun pixel => pixel)

/-- Mirrors `alignBitmap` (ImportFontModal.tsx lines 29-67).  The JS
single pass recording `firstRowWithPixel` / `lastRowWithPixel` is
rendered as a forward and a backward index search; the loop copying rows
into an all-false `newBitmap` is rendered as drop/take plus all-false
backfill rows, which is exactly which rows the loop writes. -/
def alignBitmap (bitmap : List (List Bool)) (direction : AlignDir) : List (List Bool) :=
  let height := bitmap.length
  if height = 0 then bitmap
  else
    let width := (bitmap.headD []).length
    match bitmap.findIdx? rowHasPixel, bitmap.reverse.findIdx? rowHasPixel with
    | some firstRow, some lastRev =>
        let lastRow := height - 1 - lastRev
        match direction with
        | .top =>
            if firstRow = 0 then bitmap
            else bitmap.drop firstRow ++ List.replicate firstRow (List.replicate width false)
        | .bottom =>
            if height - 1 - lastRow = 0 then bitmap
            else List.replicate (height - 1 - lastRow) (List.replicate width false)
                ++ bitmap.take (lastRow + 1)
    | _, _ => bitmap

theorem findIdx?_eq_some_of_first (p : α → Bool) (l : List α) (d : α) (i : Nat)
    (hi : i < l.length) (hp : p (l.getD i d) = true)
    (hmin : ∀ j, j < i → p (l.getD j d) = false) :
    l.findIdx? p = some i := by
  rw [List.findIdx?_eq_some_iff_findIdx_eq]
  refine ⟨hi, (List.findIdx_eq hi).mpr ⟨?_, ?_⟩⟩
  · rw [List.getD_eq_getElem l d hi] at hp
    simp [hp]
  · intro j hj
    have h2 := hmin j hj
    rw [List.getD_eq_getElem l d (by omega)] at h2
    exact h2

theorem reverse_findIdx?_last (p : α → Bool) (l : List α) (d : α) (i : Nat)
    (hi : i < l.length) (hp : p (l.getD i d) = true)
    (hmax : ∀ j, i < j → j < l.length → p (l.getD j d) = false) :
    l.reverse.findIdx? p = some (l.length - 1 - i) := by
  have hrl : l.length - 1 - i < l.reverse.length := by
    rw [List.length_reverse]
    omega
  apply findIdx?_eq_some_of_first p l.reverse d (l.length - 1 - i) hrl
  · rw [List.getD_eq_getElem l.reverse d hrl, List.getElem_reverse]
    have he : l.length - 1 - (l.length - 1 - i) = i := by omega
    simp only [he]
    rw [← List.getD_eq_getElem l d hi]
    exact hp
  · intro j hj
    have hjr : j < l.reverse.length := Nat.lt_trans hj hrl
    rw [List.getD_eq_getElem l.reverse d hjr, List.getElem_reverse]
    have hjl : j < l.length := by
      rw [List.length_reverse] at hjr
      exact hjr
    rw [← List.getD_eq_getElem l d (by omega)]
    exact hmax _ (by omega) (by omega)

theorem getLastD_eq_getD (l : List α) (d : α) :
    l.getLastD d = l.getD (l.length - 1) d := by
  rw [List.getLastD_eq_getLast?, List.getLast?_eq_getElem?, List.getD_eq_getElem?_getD]

theorem findIdx?_isSome_of_elem (p : α → Bool) (l : List α) (d : α) (i : Nat)
    (hi : i < l.length) (hp : p (l.getD i d) = true) :
    ∃ k, l.findIdx? p = some k := by
  have hsome : (l.findIdx? p).isSome = true := by
    rw [List.findIdx?_isSome, List.any_eq_true]
    refine ⟨l.getD i d, ?_, hp⟩
    rw [List.getD_eq_getElem l d hi]
    exact List.getElem_mem hi
  exact Option.isSome_iff_exists.mp hsome

theorem reverse_findIdx?_isSome (p : α → Bool) (l : List α) (d : α) (i : Nat)
    (hi : i < l.length) (hp : p (l.getD i d) = true) :
    ∃ k, l.reverse.findIdx? p = some k := by
  cases hc : l.reverse.findIdx? p with
  | none =>
      rw [List.findIdx?_eq_none_iff] at hc
      have hmem : l.getD i d ∈ l.reverse := by
        rw [List.mem_reverse, List.getD_eq_getElem l d hi]
        exact List.getElem_mem hi
      have hfalse := hc _ hmem
      rw [hp] at hfalse
      simp at hfalse
  | some k => exact ⟨k, rfl⟩

/-- C9: `alignBitmap` on a rectangular bitmap: (1) with no set pixel the
bitmap is unchanged (either direction); (2) top-alignment is a no-op when
the first row already holds a pixel, (3) bottom-alignment when the last
row does; (4) otherwise, with `f` the first set row, top-alignment keeps
the dimensions and shifts content so row `r` becomes old row `r + f`,
backfilling the vacated bottom rows with all-false rows; (5) dually, with
`l` the last set row, bottom-alignment backfills `height - 1 - l` all-false
rows on top and shifts the content down. -/
theorem alignBitmap_spec (bitmap : List (List Bool)) (height width : Nat)
    (hlen : bitmap.length = height) (hrect : ∀ row ∈ bitmap, row.length = width) :
    ((∀ row ∈ bitmap, rowHasPixel row = false) →
        alignBitmap bitmap .top = bitmap ∧ alignBitmap bitmap .bottom = bitmap)
    ∧ (rowHasPixel (bitmap.headD []) = true → alignBitmap bitmap .top = bitmap)
    ∧ (rowHasPixel (bitmap.getLastD []) = true → alignBitmap bitmap .bottom = bitmap)
    ∧ (∀ f, f < height → rowHasPixel (bitmap.getD f []) = true →
        (∀ j, j < f → rowHasPixel (bitmap.getD j []) = false) →
        (alignBitmap bitmap .top).length = height
        ∧ (∀ row ∈ alignBitmap bitmap .top, row.length = width)
        ∧ (∀ r, r < height →
            (alignBitmap bitmap .top).getD r []
              = if r < height - f then bitmap.getD (r + f) [] else List.replicate width false))
    ∧ (∀ l, l < height → rowHasPixel (bitmap.getD l []) = true →
        (∀ j, l < j → j < height → rowHasPixel (bitmap.getD j []) = false) →
        (alignBitmap bitmap .bottom).length = height
        ∧ (∀ row ∈ alignBitmap bitmap .bottom, row.length = width)
        ∧ (∀ r, r < height →
            (alignBitmap bitmap .bottom).getD r []
              = if r < height - 1 - l then List.replicate width false
                else bitmap.getD (r - (height - 1 - l)) [])) := by
  subst hlen
  by_cases hh0 : bitmap.length = 0
  · have hb : bitmap = [] := List.length_eq_zero.mp hh0
    subst hb
    refine ⟨fun _ => ⟨rfl, rfl⟩, fun _ => rfl, fun _ => rfl, ?_, ?_⟩
    · intro f hf
      simp at hf
    · intro l hl
      simp at hl
  · have hwidth0 : (bitmap.headD []).length = width := by
      cases bitmap with
      | nil => simp at hh0
      | cons row t => exact hrect row (by simp)
    refine ⟨?_, ?_, ?_, ?_, ?_⟩
    · intro hall
      have hnone : bitmap.findIdx? rowHasPixel = none :=
        List.findIdx?_eq_none_iff.mpr hall
      constructor <;>
        · unfold alignBitmap
          rw [if_neg hh0, hnone]
    · intro hhead
      have hhead0 : rowHasPixel (bitmap.getD 0 []) = true := by
        cases bitmap with
        | nil => simp at hh0
        | cons row t => simpa using hhead
      have hfirst : bitmap.findIdx? rowHasPixel = some 0 := by
        apply findIdx?_eq_some_of_first rowHasPixel bitmap [] 0 (by omega) hhead0
        intro j hj
        omega
      obtain ⟨k, hk⟩ := reverse_findIdx?_isSome rowHasPixel bitmap [] 0 (by omega) hhead0
      unfold alignBitmap
      rw [if_neg hh0, hfirst, hk]
      simp
    · intro hlast
      have hlast0 : rowHasPixel (bitmap.getD (bitmap.length - 1) []) = true := by
        rw [getLastD_eq_getD bitmap []] at hlast
        exact hlast
      obtain ⟨f1, hf1⟩ := findIdx?_isSome_of_elem rowHasPixel bitmap []
        (bitmap.length - 1) (by omega) hlast0
      have hrev : bitmap.reverse.findIdx? rowHasPixel = some 0 := by
        have h0 : bitmap.length - 1 - (bitmap.length - 1) = 0 := by omega
        conv_rhs => rw [← h0]
        apply reverse_findIdx?_last rowHasPixel bitmap [] (bitmap.length - 1)
          (by omega) hlast0
        intro j hjgt hjlt
        omega
      have halign : alignBitmap bitmap .bottom
          = if bitmap.length - 1 - (bitmap.length - 1 - 0) = 0 then bitmap
            else List.replicate (bitmap.length - 1 - (bitmap.length - 1 - 0))
                (List.replicate width false)
              ++ bitmap.take ((bitmap.length - 1 - 0) + 1) := by
        unfold alignBitmap
        rw [if_neg hh0, hf1, hrev, hwidth0]
      rw [halign, if_pos (by omega)]
    · intro f hf hpf hmin
      have hfirst : bitmap.findIdx? rowHasPixel = some f :=
        findIdx?_eq_some_of_first rowHasPixel bitmap [] f hf hpf hmin
      obtain ⟨k, hk⟩ := reverse_findIdx?_isSome rowHasPixel bitmap [] f hf hpf
      have halign : alignBitmap bitmap .top
          = if f = 0 then bitmap
            else bitmap.drop f ++ List.replicate f (List.replicate width false) := by
        unfold alignBitmap
        rw [if_neg hh0, hfirst, hk, hwidth0]
      by_cases hf0 : f = 0
      · subst hf0
        rw [halign, if_pos rfl]
        refine ⟨rfl, hrect, ?_⟩
        intro r hr
        rw [if_pos (by omega)]
        simp
      · rw [halign, if_neg hf0]
        have hlenA : (bitmap.drop f).length = bitmap.length - f := by simp
        refine ⟨?_, ?_, ?_⟩
        · simp
          omega
        · intro row hrow
          rcases List.mem_append.mp hrow with hmem | hmem
          · exact hrect row (List.mem_of_mem_drop hmem)
          · rw [List.eq_of_mem_replicate hmem]
            simp
        · intro r hr
          by_cases hcase : r < bitmap.length - f
          · rw [if_pos hcase, List.getD_append _ _ _ _ (by omega)]
            rw [List.getD_eq_getElem _ _ (by omega), List.getD_eq_getElem _ _ (by omega)]
            rw [List.getElem_drop]
            congr 1
            omega
          · rw [if_neg hcase, List.getD_append_right _ _ _ _ (by omega)]
            rw [List.getD_eq_getElem _ _ (by rw [List.length_replicate]; omega)]
            rw [List.getElem_replicate]
    · intro l hl hpl hmax
      obtain ⟨f1, hf1⟩ := findIdx?_isSome_of_elem rowHasPixel bitmap [] l hl hpl
      have hrev : bitmap.reverse.findIdx? rowHasPixel = some (bitmap.length - 1 - l) :=
        reverse_findIdx?_last rowHasPixel bitmap [] l hl hpl hmax
      have hlr : bitmap.length - 1 - (bitmap.length - 1 - l) = l := by omega
      have halign : alignBitmap bitmap .bottom
          = if bitmap.length - 1 - (bitmap.length - 1 - (bitmap.length - 1 - l)) = 0
            then bitmap
            else List.replicate
                (bitmap.length - 1 - (bitmap.length - 1 - (bitmap.length - 1 - l)))
                (List.replicate width false)
              ++ bitmap.take ((bitmap.length - 1 - (bitmap.length - 1 - l)) + 1) := by
        unfold alignBitmap
        rw [if_neg hh0, hf1, hrev, hwidth0]
      rw [hlr] at halign
      by_cases hsh : bitmap.length - 1 - l = 0
      · rw [halign, if_pos hsh]
        refine ⟨rfl, hrect, ?_⟩
        intro r hr
        rw [hsh, if_neg (by omega)]
        simp
      · rw [halign, if_neg hsh]
        refine ⟨?_, ?_, ?_⟩
        · simp
          omega
        · intro row hrow
          rcases List.mem_append.mp hrow with hmem | hmem
          · rw [List.eq_of_mem_replicate hmem]
            simp
          · exact hrect row (List.mem_of_mem_take hmem)
        · intro r hr
          by_cases hcase : r < bitmap.length - 1 - l
          · rw [if_pos hcase,
              List.getD_append _ _ _ _ (by rw [List.length_replicate]; omega)]
            rw [List.getD_eq_getElem _ _ (by rw [List.length_replicate]; omega)]
            rw [List.getElem_replicate]
          · rw [if_neg hcase,
              List.getD_append_right _ _ _ _ (by rw [List.length_replicate]; omega)]
            rw [List.length_replicate]
            rw [List.getD_eq_getElem _ _ (by rw [List.length_take]; omega)]
            rw [List.getElem_take, List.getD_eq_getElem _ _ (by omega)]

/-- Concrete instance: top-aligning `[[false], [true]]` moves the set
row to the top. -/
theorem alignBitmap_spec_witness :
    (alignBitmap [[false], [true]] AlignDir.top).getD 0 []
      = if 0 < 2 - 1 then [[false], [true]].getD (0 + 1) [] else List.replicate 1 false :=
  ((alignBitmap_spec [[false], [true]] 2 1 rfl (by decide)).2.2.2.1 1 (by decide) (by decide)
    (by decide)).2.2 0 (by decide)

/-! Fixed/dynamic format conversion (`convertToDynamic` /
`convertToFixed`, src/components/ImportFontModal.tsx lines 70-129). -/

/-- One step of the JS bounding-box update: a set pixel at column `x`
lowers `minX` (`if (x < minX) minX = x`) and raises `maxX`
(`if (x > maxX) maxX = x`, with `-1` modelled as `none`). -/
def scanUpd (q : Nat × Option Nat) (x : Nat) (pix : Bool) : Nat × Option Nat :=
  if pix then
    (if x < q.1 then x else q.1,
     some (match q.2 with
           | none => x
           | some m => if x > m then x else m))
  else q

/-- The inner `for x` loop: scan columns `0..n` reading pixels through `f`. -/
def rowScan (f : Nat → Bool) (n : Nat) (q : Nat × Option Nat) : Nat × Option Nat :=
  (List.range n).foldl (fun q x => scanUpd q x (f x)) q

/-- The outer `for y` loop over the rows of a bitmap, each row scanned
over its own length. -/
def rowsScan (rows : List (List Bool)) (q : Nat × Option Nat) : Nat × Option Nat :=
  rows.foldl (fun p row => rowScan (fun x => row.getD x false) row.length p) q

/-- The column bounding-box scan of `convertToDynamic` (ImportFontModal.tsx
lines 81-92): `minX` starts at `bitmap[0]?.length ?? 0`, `maxX` at `-1`. -/
def bitmapScan (bitmap : List (List Bool)) : Nat × Option Nat :=
  rowsScan bitmap ((bitmap.headD []).length, none)

theorem rowScan_succ (f : Nat → Bool) (n : Nat) (q : Nat × Option Nat) :
    rowScan f (n + 1) q = scanUpd (rowScan f n q) n (f n) := by
  unfold rowScan
  rw [List.range_succ, List.foldl_append]
  rfl

theorem scanUpd_fst_le (q : Nat × Option Nat) (x : Nat) (b : Bool) :
    (scanUpd q x b).1 ≤ q.1 := by
  unfold scanUpd
  cases b with
  | false => simp
  | true =>
      simp only [if_pos]
      split <;> omega

theorem scanUpd_snd_mono (q : Nat × Option Nat) (x : Nat) (b : Bool) (m0 : Nat)
    (h : q.2 = some m0) : ∃ m, (scanUpd q x b).2 = some m ∧ m0 ≤ m := by
  unfold scanUpd
  cases b with
  | false => exact ⟨m0, by simpa using h⟩
  | true =>
      simp only [if_pos, h]
      by_cases hx : x > m0
      · exact ⟨x, by simp [hx], by omega⟩
      · exact ⟨m0, by simp [hx], by omega⟩

theorem rowScan_fst_le (f : Nat → Bool) (n : Nat) (q : Nat × Option Nat) :
    (rowScan f n q).1 ≤ q.1 := by
  induction n with
  | zero => exact Nat.le_refl _
  | succ k ih =>
      rw [rowScan_succ]
      exact Nat.le_trans (scanUpd_fst_le _ _ _) ih

theorem rowScan_fst_le_set (f : Nat → Bool) (n : Nat) (q : Nat × Option Nat)
    (x : Nat) (hx : x < n) (hfx : f x = true) : (rowScan f n q).1 ≤ x := by
  induction n with
  | zero => omega
  | succ k ih =>
      rw [rowScan_succ]
      by_cases hxk : x = k
      · subst hxk
        unfold scanUpd
        rw [hfx]
        simp only [if_pos]
        split <;> omega
      · exact Nat.le_trans (scanUpd_fst_le _ _ _) (ih (by omega))

theorem rowScan_snd_none_iff (f : Nat → Bool) (n : Nat) (q : Nat × Option Nat) :
    (rowScan f n q).2 = none ↔ (q.2 = none ∧ ∀ x, x < n → f x = false) := by
  induction n with
  | zero =>
      constructor
      · intro h
        exact ⟨h, fun x hx => by omega⟩
      · intro h
        exact h.1
  | succ k ih =>
      rw [rowScan_succ]
      unfold scanUpd
      cases hk : f k with
      | false =>
          simp only [Bool.false_eq_true, if_neg, not_false_iff]
          rw [ih]
          constructor
          · rintro ⟨h1, h2⟩
            refine ⟨h1, fun x hx => ?_⟩
            by_cases hxk : x = k
            · subst hxk; exact hk
            · exact h2 x (by omega)
          · rintro ⟨h1, h2⟩
            exact ⟨h1, fun x hx => h2 x (by omega)⟩
      | true =>
          simp only [if_pos]
          constructor
          · intro h
            simp at h
          · rintro ⟨_, h2⟩
            have := h2 k (by omega)
            rw [hk] at this
            simp at this

theorem rowScan_snd_some (f : Nat → Bool) (n : Nat) (q : Nat × Option Nat) (m : Nat)
    (h : (rowScan f n q).2 = some m) :
    q.2 = some m ∨ (m < n ∧ f m = true) := by
  induction n generalizing m with
  | zero => exact Or.inl h
  | succ k ih =>
      rw [rowScan_succ] at h
      unfold scanUpd at h
      cases hk : f k with
      | false =>
          rw [hk] at h
          simp only [Bool.false_eq_true, if_neg, not_false_iff] at h
          rcases ih m h with h1 | h1
          · exact Or.inl h1
          · exact Or.inr ⟨by omega, h1.2⟩
      | true =>
          rw [hk] at h
          simp only [if_pos] at h
          cases hprev : (rowScan f k q).2 with
          | none =>
              rw [hprev] at h
              simp at h
              subst h
              exact Or.inr ⟨by omega, hk⟩
          | some m' =>
              rw [hprev] at h
              simp at h
              by_cases hcmp : k > m'
              · rw [if_pos hcmp] at h
                subst h
                exact Or.inr ⟨by omega, hk⟩
              · rw [if_neg hcmp] at h
                subst h
                rcases ih m' hprev with h1 | h1
                · exact Or.inl h1
                · exact Or.inr ⟨by omega, h1.2⟩

theorem rowScan_snd_ge_set (f : Nat → Bool) (n : Nat) (q : Nat × Option Nat)
    (x : Nat) (hx : x < n) (hfx : f x = true) (m : Nat)
    (h : (rowScan f n q).2 = some m) : x ≤ m := by
  induction n generalizing m with
  | zero => omega
  | succ k ih =>
      rw [rowScan_succ] at h
      by_cases hxk : x = k
      · subst hxk
        unfold scanUpd at h
        rw [hfx] at h
        simp only [if_pos] at h
        cases hprev : (rowScan f x q).2 with
        | none => rw [hprev] at h; simp at h; omega
        | some m' =>
            rw [hprev] at h
            simp at h
            by_cases hcmp : x > m'
            · rw [if_pos hcmp] at h; omega
            · rw [if_neg hcmp] at h; omega
      · have hxlt : x < k := by omega
        cases hprev : (rowScan f k q).2 with
        | none =>
            rw [rowScan_snd_none_iff] at hprev
            have := hprev.2 x hxlt
            rw [hfx] at this
            simp at this
        | some m' =>
            have hm' := ih hxlt m' hprev
            obtain ⟨m2, hm2, hle⟩ := scanUpd_snd_mono (rowScan f k q) k (f k) m' hprev
            rw [hm2] at h
            injection h with h
            omega

theorem rowScan_snd_isSome_mono (f : Nat → Bool) (n : Nat) (q : Nat × Option Nat)
    (m0 : Nat) (h : q.2 = some m0) :
    ∃ m, (rowScan f n q).2 = some m ∧ m0 ≤ m := by
  induction n with
  | zero => exact ⟨m0, h, Nat.le_refl _⟩
  | succ k ih =>
      obtain ⟨m1, hm1, hle1⟩ := ih
      rw [rowScan_succ]
      obtain ⟨m2, hm2, hle2⟩ := scanUpd_snd_mono (rowScan f k q) k (f k) m1 hm1
      exact ⟨m2, hm2, by omega⟩

/-- A `getD` read that returns `true` is a read inside the row. -/
theorem getD_true_lt (row : List Bool) (x : Nat) (h : row.getD x false = true) :
    x < row.length := by
  by_contra hlt
  rw [List.getD_eq_default _ _ (by omega)] at h
  simp at h

theorem rowsScan_cons (r : List Bool) (t : List (List Bool)) (q : Nat × Option Nat) :
    rowsScan (r :: t) q = rowsScan t (rowScan (fun x => r.getD x false) r.length q) := rfl

theorem rowsScan_fst_le (rows : List (List Bool)) (q : Nat × Option Nat) :
    (rowsScan rows q).1 ≤ q.1 := by
  induction rows generalizing q with
  | nil => exact Nat.le_refl _
  | cons row t ih =>
      rw [rowsScan_cons]
      exact Nat.le_trans (ih _) (rowScan_fst_le _ _ _)

theorem rowsScan_fst_le_set (rows : List (List Bool)) (q : Nat × Option Nat)
    (row : List Bool) (hrow : row ∈ rows) (x : Nat) (hx : row.getD x false = true) :
    (rowsScan rows q).1 ≤ x := by
  induction rows generalizing q with
  | nil => simp at hrow
  | cons r t ih =>
      rw [rowsScan_cons]
      rcases List.mem_cons.mp hrow with heq | hmem
      · subst heq
        exact Nat.le_trans (rowsScan_fst_le _ _)
          (rowScan_fst_le_set _ _ _ x (getD_true_lt _ _ hx) hx)
      · exact ih _ hmem

theorem rowsScan_snd_none_iff (rows : List (List Bool)) (q : Nat × Option Nat) :
    (rowsScan rows q).2 = none
      ↔ (q.2 = none ∧ ∀ row ∈ rows, ∀ x, row.getD x false = false) := by
  induction rows generalizing q with
  | nil =>
      constructor
      · intro h
        exact ⟨h, by simp⟩
      · intro h
        exact h.1
  | cons r t ih =>
      rw [rowsScan_cons]
      constructor
      · intro h
        have hr := (ih _).mp h
        have hrow := (rowScan_snd_none_iff _ _ _).mp hr.1
        refine ⟨hrow.1, ?_⟩
        intro row hrow2 x
        rcases List.mem_cons.mp hrow2 with heq | hmem
        · subst heq
          by_cases hx : x < row.length
          · exact hrow.2 x hx
          · exact List.getD_eq_default _ _ (by omega)
        · exact hr.2 row hmem x
      · rintro ⟨h1, h2⟩
        apply (ih _).mpr
        refine ⟨?_, fun row hm x => h2 row (by simp [hm]) x⟩
        apply (rowScan_snd_none_iff _ _ _).mpr
        exact ⟨h1, fun x _ => h2 r (by simp) x⟩

theorem rowsScan_snd_some (rows : List (List Bool)) (q : Nat × Option Nat) (m : Nat)
    (h : (rowsScan rows q).2 = some m) :
    q.2 = some m ∨ ∃ row ∈ rows, row.getD m false = true := by
  induction rows generalizing q with
  | nil => exact Or.inl h
  | cons r t ih =>
      rw [rowsScan_cons] at h
      rcases ih _ h with h1 | h1
      · rcases rowScan_snd_some _ _ _ m h1 with h2 | h2
        · exact Or.inl h2
        · exact Or.inr ⟨r, by simp, h2.2⟩
      · obtain ⟨row, hmem, hset⟩ := h1
        exact Or.inr ⟨row, by simp [hmem], hset⟩

theorem rowsScan_snd_isSome_mono (rows : List (List Bool)) (q : Nat × Option Nat)
    (m0 : Nat) (h : q.2 = some m0) :
    ∃ m, (rowsScan rows q).2 = some m ∧ m0 ≤ m := by
  induction rows generalizing q m0 with
  | nil => exact ⟨m0, h, Nat.le_refl _⟩
  | cons r t ih =>
      rw [rowsScan_cons]
      obtain ⟨m1, hm1, hle1⟩ := rowScan_snd_isSome_mono
        (fun x => r.getD x false) r.length q m0 h
      obtain ⟨m2, hm2, hle2⟩ := ih _ m1 hm1
      exact ⟨m2, hm2, by omega⟩

theorem rowsScan_snd_ge_set (rows : List (List Bool)) (q : Nat × Option Nat)
    (row : List Bool) (hrow : row ∈ rows) (x : Nat) (hx : row.getD x false = true)
    (m : Nat) (h : (rowsScan rows q).2 = some m) : x ≤ m := by
  induction rows generalizing q with
  | nil => simp at hrow
  | cons r t ih =>
      rw [rowsScan_cons] at h
      rcases List.mem_cons.mp hrow with heq | hmem
      · subst heq
        have hxlt := getD_true_lt _ _ hx
        cases hq1 : (rowScan (fun y => row.getD y false) row.length q).2 with
        | none =>
            rw [rowScan_snd_none_iff] at hq1
            have hfalse := hq1.2 x hxlt
            rw [hx] at hfalse
            simp at hfalse
        | some m1 =>
            have hxm1 := rowScan_snd_ge_set _ _ _ x hxlt hx m1 hq1
            obtain ⟨m2, hm2, hle⟩ := rowsScan_snd_isSome_mono t _ m1 hq1
            rw [hm2] at h
            injection h with h
            omega
      · exact ih _ hmem h

theorem jsSlice_nonneg (l : List α) (s e : Int) (hs : 0 ≤ s) (he : 0 ≤ e) :
    jsSlice l s e = (l.take e.toNat).drop s.toNat := by
  simp only [jsSlice]
  rw [if_neg (by omega), if_neg (by omega)]
  have h2 : (min e (l.length : Int)).toNat = min e.toNat l.length := by omega
  rw [h2]
  have ht : l.take (min e.toNat l.length) = l.take e.toNat := by
    by_cases hc : e.toNat ≤ l.length
    · rw [Nat.min_eq_left hc]
    · rw [Nat.min_eq_right (by omega), List.take_length,
        List.take_of_length_le (by omega)]
  rw [ht]
  have h1 : (min s (l.length : Int)).toNat = min s.toNat l.length := by omega
  rw [h1]
  by_cases hc : s.toNat ≤ l.length
  · rw [Nat.min_eq_left hc]
  · rw [Nat.min_eq_right (by omega)]
    rw [List.drop_of_length_le (by simp), List.drop_of_length_le (by simp; omega)]

theorem jsSlice_natCast (l : List α) (a b : Nat) :
    jsSlice l (a : Int) (b : Int) = (l.take b).drop a := by
  rw [jsSlice_nonneg l _ _ (by omega) (by omega)]
  simp

theorem jsSlice_zero_natCast (l : List α) (b : Nat) :
    jsSlice l 0 (b : Int) = l.take b := by
  rw [jsSlice_nonneg l 0 _ (by omega) (by omega)]
  simp

theorem mem_of_mem_jsSlice {x : α} {l : List α} {s e : Int} (h : x ∈ jsSlice l s e) :
    x ∈ l := by
  simp only [jsSlice] at h
  exact List.mem_of_mem_take (List.mem_of_mem_drop h)

theorem jsSlice_length_eq (l₁ : List α) (l₂ : List β) (s e : Int)
    (hlen : l₁.length = l₂.length) :
    (jsSlice l₁ s e).length = (jsSlice l₂ s e).length := by
  simp only [jsSlice, List.length_drop, List.length_take, hlen]

theorem jsSlice_length_of_le (l : List α) (s e : Int) (hs : 0 ≤ s) (hse : s ≤ e)
    (he : e ≤ (l.length : Int)) :
    (jsSlice l s e).length = (e - s).toNat := by
  rw [jsSlice_nonneg l s e hs (by omega)]
  simp only [List.length_drop, List.length_take]
  omega

/-- Per-glyph body of `convertToDynamic` (ImportFontModal.tsx lines
72-103): the space character becomes an all-false bitmap of width
`max(1, floor(originalWidth / 2))`; otherwise the glyph is trimmed to its
column bounding box `[minX, maxX]`, an empty glyph to zero columns.
The second component is the width the JS loop compares against its
running `maxWidth` (0 for the empty branch, which never updates it). -/
def convertCharToDynamic (charData : GeneratedChar) (originalWidth : Nat) :
    GeneratedChar × Nat :=
  if charData.char = ' ' then
    let spaceWidth := max 1 (originalWidth / 2)
    ({charData with
        bitmap := List.replicate charData.bitmap.length (List.replicate spaceWidth false),
        bytes := List.replicate spaceWidth 0}, spaceWidth)
  else
    match bitmapScan charData.bitmap with
    | (_, none) =>
        ({charData with
            bitmap := List.replicate charData.bitmap.length ([] : List Bool),
            bytes := []}, 0)
    | (minX, some maxX) =>
        ({charData with
            bitmap := charData.bitmap.map
              (fun row => jsSlice row (minX : Int) ((maxX : Int) + 1)),
            bytes := jsSlice charData.bytes (minX : Int) ((maxX : Int) + 1)},
         maxX - minX + 1)

/-- Mirrors `convertToDynamic` (ImportFontModal.tsx lines 70-105):
per-glyph trimming plus the running maximum of the produced widths. -/
def convertToDynamic (fontData : List GeneratedChar) (originalWidth : Nat) :
    List GeneratedChar × Nat :=
  (fontData.map (fun cd => (convertCharToDynamic cd originalWidth).1),
   fontData.foldl (fun m cd => max m (convertCharToDynamic cd originalWidth).2) 0)

/-- Per-glyph body of `convertToFixed` (ImportFontModal.tsx lines
109-127): truncate or pad each glyph to `newWidth` columns. -/
def convertCharToFixed (charData : GeneratedChar) (newWidth : Nat) : GeneratedChar :=
  let currentWidth := charData.bytes.length
  if currentWidth = newWidth then charData
  else if currentWidth > newWidth then
    {charData with
      bitmap := charData.bitmap.map (fun row => jsSlice row 0 (newWidth : Int)),
      bytes := jsSlice charData.bytes 0 (newWidth : Int)}
  else
    {charData with
      bitmap := charData.bitmap.map
        (fun row => row ++ List.replicate (newWidth - currentWidth) false),
      bytes := charData.bytes ++ List.replicate (newWidth - currentWidth) 0}

/-- Mirrors `convertToFixed` (ImportFontModal.tsx lines 108-129). -/
def convertToFixed (fontData : List GeneratedChar) (newWidth : Nat) : List GeneratedChar :=
  fontData.map (fun charData => convertCharToFixed charData newWidth)

theorem convertToDynamic_fst (fd : List GeneratedChar) (w : Nat) :
    (convertToDynamic fd w).1 = fd.map (fun cd => (convertCharToDynamic cd w).1) := rfl

theorem row_allfalse_eq_replicate (row : List Bool) (w : Nat) (hlen : row.length = w)
    (hall : ∀ x, row.getD x false = false) : row = List.replicate w false := by
  apply List.eq_replicate_iff.mpr
  refine ⟨hlen, ?_⟩
  intro b hb
  obtain ⟨i, hi, hbi⟩ := List.getElem_of_mem hb
  have hfi := hall i
  rw [List.getD_eq_getElem _ _ hi] at hfi
  rw [← hbi]
  exact hfi

theorem bitmap_allfalse_eq_replicate (bm : List (List Bool)) (h w : Nat)
    (hlen : bm.length = h) (hrect : ∀ row ∈ bm, row.length = w)
    (hall : ∀ row ∈ bm, ∀ x, row.getD x false = false) :
    bm = List.replicate h (List.replicate w false) := by
  apply List.eq_replicate_iff.mpr
  exact ⟨hlen,
    fun row hrow => row_allfalse_eq_replicate row w (hrect row hrow) (hall row hrow)⟩

theorem drop_allfalse_eq_replicate (row : List Bool) (k : Nat)
    (hfalse : ∀ x, k ≤ x → row.getD x false = false) :
    row.drop k = List.replicate (row.length - k) false := by
  apply List.eq_replicate_iff.mpr
  refine ⟨by simp, ?_⟩
  intro b hb
  obtain ⟨i, hi, hbi⟩ := List.getElem_of_mem hb
  rw [List.getElem_drop] at hbi
  have hfi := hfalse (k + i) (by omega)
  rw [List.getD_eq_getElem _ _ (by rw [List.length_drop] at hi; omega)] at hfi
  rw [← hbi]
  exact hfi

theorem convert_char_roundtrip (g : GeneratedChar) (w : Nat)
    (hrect : ∀ row ∈ g.bitmap, row.length = w)
    (hbytes : g.bytes.length = w)
    (hspace : g.char = ' ' → ∀ row ∈ g.bitmap, ∀ x, x < row.length → row.getD x false = false)
    (hlead : g.char ≠ ' ' →
        (∀ row ∈ g.bitmap, ∀ x, x < row.length → row.getD x false = false)
        ∨ (∃ row ∈ g.bitmap, row.getD 0 false = true)) :
    (convertCharToFixed (convertCharToDynamic g w).1 w).bitmap = g.bitmap := by
  by_cases hsp : g.char = ' '
  · have hall : ∀ row ∈ g.bitmap, ∀ x, row.getD x false = false := by
      intro row hr x
      by_cases hx : x < row.length
      · exact hspace hsp row hr x hx
      · exact List.getD_eq_default _ _ (by omega)
    have hbm : g.bitmap = List.replicate g.bitmap.length (List.replicate w false) :=
      bitmap_allfalse_eq_replicate _ _ _ rfl hrect hall
    have hdyn : (convertCharToDynamic g w).1
        = ⟨g.char, g.ascii,
           List.replicate g.bitmap.length (List.replicate (max 1 (w / 2)) false),
           List.replicate (max 1 (w / 2)) 0⟩ := by
      simp only [convertCharToDynamic, if_pos hsp]
    rw [hdyn]
    simp only [convertCharToFixed, List.length_replicate]
    by_cases h1 : max 1 (w / 2) = w
    · rw [if_pos h1]
      conv_rhs => rw [hbm]
      rw [h1]
    · by_cases h2 : max 1 (w / 2) > w
      · rw [if_neg h1, if_pos h2]
        show (List.replicate g.bitmap.length (List.replicate (max 1 (w / 2)) false)).map
            (fun row => jsSlice row 0 (w : Int)) = g.bitmap
        rw [List.map_replicate, jsSlice_zero_natCast, List.take_replicate,
          Nat.min_eq_left (by omega)]
        exact hbm.symm
      · rw [if_neg h1, if_neg h2]
        show (List.replicate g.bitmap.length (List.replicate (max 1 (w / 2)) false)).map
            (fun row => row ++ List.replicate (w - max 1 (w / 2)) false) = g.bitmap
        rw [List.map_replicate, List.append_replicate_replicate]
        have hsum : max 1 (w / 2) + (w - max 1 (w / 2)) = w := by omega
        rw [hsum]
        exact hbm.symm
  · rcases hlead hsp with hempty | hpix
    · have hempty' : ∀ row ∈ g.bitmap, ∀ x, row.getD x false = false := by
        intro row hr x
        by_cases hx : x < row.length
        · exact hempty row hr x hx
        · exact List.getD_eq_default _ _ (by omega)
      have hbm : g.bitmap = List.replicate g.bitmap.length (List.replicate w false) :=
        bitmap_allfalse_eq_replicate _ _ _ rfl hrect hempty'
      have hnone : (bitmapScan g.bitmap).2 = none :=
        (rowsScan_snd_none_iff _ _).mpr ⟨rfl, hempty'⟩
      have hpair : bitmapScan g.bitmap = ((bitmapScan g.bitmap).1, none) :=
        Prod.ext_iff.mpr ⟨rfl, hnone⟩
      have hdyn : (convertCharToDynamic g w).1
          = ⟨g.char, g.ascii, List.replicate g.bitmap.length ([] : List Bool), []⟩ := by
        simp only [convertCharToDynamic, if_neg hsp]
        rw [hpair]
      rw [hdyn]
      simp only [convertCharToFixed, List.length_nil]
      by_cases hw0 : 0 = w
      · rw [if_pos hw0]
        conv_rhs => rw [hbm, ← hw0]
        simp
      · rw [if_neg hw0, if_neg (by omega)]
        show (List.replicate g.bitmap.length ([] : List Bool)).map
            (fun row => row ++ List.replicate (w - 0) false) = g.bitmap
        rw [List.map_replicate, List.nil_append, Nat.sub_zero]
        exact hbm.symm
    · obtain ⟨prow, hprow, hp0⟩ := hpix
      obtain ⟨m, hm⟩ : ∃ m, (bitmapScan g.bitmap).2 = some m := by
        cases hc : (bitmapScan g.bitmap).2 with
        | none =>
            have hf := ((rowsScan_snd_none_iff _ _).mp hc).2 prow hprow 0
            rw [hp0] at hf
            simp at hf
        | some m => exact ⟨m, rfl⟩
      have hmin : (bitmapScan g.bitmap).1 = 0 :=
        Nat.le_zero.mp (rowsScan_fst_le_set _ _ prow hprow 0 hp0)
      have hpair : bitmapScan g.bitmap = (0, some m) := Prod.ext_iff.mpr ⟨hmin, hm⟩
      obtain ⟨mrow, hmrow, hmrowset⟩ : ∃ row ∈ g.bitmap, row.getD m false = true := by
        rcases rowsScan_snd_some _ _ m hm with hq | hq
        · simp at hq
        · exact hq
      have hmw : m < w := by
        have hlt := getD_true_lt _ _ hmrowset
        rwa [hrect mrow hmrow] at hlt
      have hmax : ∀ row ∈ g.bitmap, ∀ x, row.getD x false = true → x ≤ m :=
        fun row hr x hx => rowsScan_snd_ge_set _ _ row hr x hx m hm
      have hcast : ((m : Int) + 1) = ((m + 1 : Nat) : Int) := by omega
      have hdyn : (convertCharToDynamic g w).1
          = ⟨g.char, g.ascii, g.bitmap.map (fun row => row.take (m + 1)),
              g.bytes.take (m + 1)⟩ := by
        simp only [convertCharToDynamic, if_neg hsp]
        rw [hpair]
        simp only [Nat.cast_zero, hcast, jsSlice_zero_natCast]
      rw [hdyn]
      have hbyteslen : (g.bytes.take (m + 1)).length = m + 1 := by
        rw [List.length_take]
        omega
      simp only [convertCharToFixed, hbyteslen]
      by_cases hweq : m + 1 = w
      · rw [if_pos hweq]
        show g.bitmap.map (fun row => row.take (m + 1)) = g.bitmap
        calc g.bitmap.map (fun row => row.take (m + 1))
            = g.bitmap.map id := by
              apply List.map_congr_left
              intro row hr
              show row.take (m + 1) = id row
              rw [hweq, ← hrect row hr, List.take_length]
              rfl
          _ = g.bitmap := List.map_id _
      · rw [if_neg hweq, if_neg (by omega)]
        show (g.bitmap.map (fun row => row.take (m + 1))).map
            (fun row => row ++ List.replicate (w - (m + 1)) false) = g.bitmap
        rw [List.map_map]
        calc g.bitmap.map
              ((fun row => row ++ List.replicate (w - (m + 1)) false)
                ∘ (fun row => row.take (m + 1)))
            = g.bitmap.map id := by
              apply List.map_congr_left
              intro row hr
              show row.take (m + 1) ++ List.replicate (w - (m + 1)) false = id row
              have hdropeq : row.drop (m + 1)
                  = List.replicate (row.length - (m + 1)) false := by
                apply drop_allfalse_eq_replicate
                intro x hx
                cases hval : row.getD x false with
                | false => rfl
                | true =>
                    have := hmax row hr x hval
                    omega
              have hrl : row.length - (m + 1) = w - (m + 1) := by rw [hrect row hr]
              rw [hrl] at hdropeq
              show row.take (m + 1) ++ List.replicate (w - (m + 1)) false = row
              conv_rhs => rw [← List.take_append_drop (m + 1) row]
              rw [hdropeq]
          _ = g.bitmap := List.map_id _

/-- Glyph with a leading blank column, refuting C3 as stated. -/
def c3CounterGlyph : GeneratedChar := ⟨'A', 65, [[false, true]], [0, 1]⟩

/-- C3 counterexample: `convertToDynamic` trims the leading blank column
and `convertToFixed` re-pads on the right, so Fixed→Dynamic→Fixed(2)
turns the bitmap `[[false, true]]` into `[[true, false]]`. -/
theorem fixed_dynamic_fixed_counterexample :
    (convertToFixed (convertToDynamic [c3CounterGlyph] 2).1 2).map (fun g => g.bitmap)
      ≠ [c3CounterGlyph].map (fun g => g.bitmap) := by decide

/-- C3 (amended): Fixed→Dynamic→Fixed(originalWidth) reproduces each
glyph's bitmap for rectangular glyphs of width `originalWidth` with
matching byte count, provided the glyph's content starts in column 0
(no leading blank columns): each non-space glyph is all-false or has a
set pixel in column 0, and the space glyph is all-false (its bitmap is
replaced by a blank of width `max(1, originalWidth/2)` regardless of
content). -/
theorem fixed_dynamic_fixed_roundtrip (fontData : List GeneratedChar) (w : Nat)
    (hrect : ∀ g ∈ fontData, ∀ row ∈ g.bitmap, row.length = w)
    (hbytes : ∀ g ∈ fontData, g.bytes.length = w)
    (hspace : ∀ g ∈ fontData, g.char = ' ' →
        ∀ row ∈ g.bitmap, ∀ x, x < row.length → row.getD x false = false)
    (hlead : ∀ g ∈ fontData, g.char ≠ ' ' →
        (∀ row ∈ g.bitmap, ∀ x, x < row.length → row.getD x false = false)
        ∨ (∃ row ∈ g.bitmap, row.getD 0 false = true)) :
    (convertToFixed (convertToDynamic fontData w).1 w).map (fun g => g.bitmap)
      = fontData.map (fun g => g.bitmap) := by
  rw [convertToDynamic_fst]
  unfold convertToFixed
  rw [List.map_map, List.map_map]
  apply List.map_congr_left
  intro g hg
  show (convertCharToFixed (convertCharToDynamic g w).1 w).bitmap = g.bitmap
  exact convert_char_roundtrip g w (hrect g hg) (hbytes g hg) (hspace g hg) (hlead g hg)

/-- Glyph whose content starts at column 0. -/
def c3WitnessGlyph : GeneratedChar := ⟨'B', 66, [[true, false]], [1, 0]⟩

/-- Witness: the amended round trip holds for `[[true, false]]`. -/
theorem fixed_dynamic_fixed_roundtrip_witness :
    (convertToFixed (convertToDynamic [c3WitnessGlyph] 2).1 2).map (fun g => g.bitmap)
      = [c3WitnessGlyph].map (fun g => g.bitmap) :=
  fixed_dynamic_fixed_roundtrip [c3WitnessGlyph] 2 (by decide) (by decide)
    (by decide) (by decide)

/-! The rasterization pipeline (`generateChars`, src/services/fontGenerator,
bundled in src/App.tsx lines 892-1113). -/

/-- The options consumed by the short-circuit, trimming and packing logic
of `generateChars`.  Fields that only feed the canvas rasterizer (font
family, weight, size adjustment, render mode, threshold, alignment,
offsets, character set) are absorbed into the rasterizer oracle;
`charSpacing` is nonnegative (its UI input has `min="0"`). -/
structure FontGeneratorOptions where
  width : Int
  height : Nat
  charSpacing : Nat
  dynamicWidth : Bool

/-- JS whitespace for a single character: `char.trim() === ''` holds
exactly when the character is in the WhiteSpace or LineTerminator sets. -/
def jsIsWhitespace (c : Char) : Bool :=
  c == ' ' || c == '\t' || c == '\n' || c == '\u000B' || c == '\u000C' || c == '\r'
    || c == '\u00A0' || c == '\u1680' || c == '\u2000' || c == '\u2001' || c == '\u2002'
    || c == '\u2003' || c == '\u2004' || c == '\u2005' || c == '\u2006' || c == '\u2007'
    || c == '\u2008' || c == '\u2009' || c == '\u200A' || c == '\u2028' || c == '\u2029'
    || c == '\u202F' || c == '\u205F' || c == '\u3000' || c == '\uFEFF'

/-- The bounding-box scan inside `generateChars` (lines 1067-1076):
`for y < height, x < glyphRenderWidth` reading `renderedBitmap[y][x]`
(a read outside the rendered surface is falsy); `minX` starts at
`glyphRenderWidth`, `maxX` at `-1`. -/
def gridScan (bm : List (List Bool)) (h w : Nat) : Nat × Option Nat :=
  (List.range h).foldl
    (fun p y => rowScan (fun x => (bm.getD y []).getD x false) w p)
    (w, none)

/-- Mirrors `generateChars` (fontGenerator lines 892-1113).  The canvas
rasterization branches (aliased, supersampled anti-aliased, Floyd-Steinberg
dithered; lines 960-1058) depend on the external text rasterizer and are
abstracted as the oracle `render`, which produces the `renderedBitmap`
those branches compute; the surrounding logic is modelled faithfully.
The numeric field holds `codePointAt(0)`. -/
def generateChars (options : FontGeneratorOptions) (render : Char → List (List Bool))
    (characters : List Char) : List GeneratedChar :=
  let glyphRenderWidth := options.width
  if glyphRenderWidth ≤ 0 then
    let totalWidth : Int := if options.dynamicWidth then 0 else (options.charSpacing : Int)
    if totalWidth ≤ 0 then
      characters.map (fun char => ⟨char, char.toNat, List.replicate options.height [], []⟩)
    else
      characters.map (fun char =>
        ⟨char, char.toNat,
         List.replicate options.height (List.replicate totalWidth.toNat false),
         List.replicate totalWidth.toNat 0⟩)
  else
    characters.map (fun char =>
      if jsIsWhitespace char ∧ char ≠ ' ' then
        let totalWidth : Int :=
          if options.dynamicWidth then 0 else glyphRenderWidth + (options.charSpacing : Int)
        ⟨char, char.toNat,
         List.replicate options.height (List.replicate totalWidth.toNat false),
         List.replicate totalWidth.toNat 0⟩
      else
        let renderedBitmap := render char
        let finalBitmap :=
          if options.dynamicWidth then
            if char = ' ' then
              let spaceWidth : Int :=
                if glyphRenderWidth / 2 = 0 then 1 else glyphRenderWidth / 2
              List.replicate options.height (List.replicate spaceWidth.toNat false)
            else
              match gridScan renderedBitmap options.height glyphRenderWidth.toNat with
              | (_, none) => List.replicate options.height ([] : List Bool)
              | (minX, some maxX) =>
                  renderedBitmap.map (fun row => jsSlice row (minX : Int) ((maxX : Int) + 1))
          else
            if options.charSpacing > 0 then
              renderedBitmap.map (fun row => row ++ List.replicate options.charSpacing false)
            else renderedBitmap
        ⟨char, char.toNat, finalBitmap, bitmapToBytes finalBitmap options.height⟩)

theorem foldl_setbits_id (g : Nat → Bool) (p : Nat → Nat) (l : List Nat) (acc : Nat)
    (hg : ∀ r ∈ l, g r = false) :
    l.foldl (fun byte r => if g r then byte ||| (1 <<< p r) else byte) acc = acc := by
  induction l generalizing acc with
  | nil => rfl
  | cons r t ih =>
      rw [List.foldl_cons, if_neg (by simp [hg r (by simp)])]
      exact ih _ (fun x hx => hg x (by simp [hx]))

theorem colByte_allfalse (bm : List (List Bool)) (height c : Nat)
    (hall : ∀ r, (bm.getD r []).getD c false = false) :
    colByte bm height c = 0 := by
  unfold colByte
  exact foldl_setbits_id _ _ _ _ (fun r _ => hall r)

theorem bitmapToBytes_allfalse (h sw height : Nat) (hh : 0 < h) :
    bitmapToBytes (List.replicate h (List.replicate sw false)) height
      = List.replicate sw 0 := by
  unfold bitmapToBytes
  have hhead : (List.replicate h (List.replicate sw false)).headD [] =
      List.replicate sw false := by
    cases h with
    | zero => omega
    | succ k => rw [List.replicate_succ]; rfl
  rw [hhead, List.length_replicate]
  apply List.eq_replicate_iff.mpr
  refine ⟨by simp, ?_⟩
  intro b hb
  rw [List.mem_map] at hb
  obtain ⟨c, _, hc⟩ := hb
  rw [← hc, colByte_allfalse]
  · rfl
  · intro r
    by_cases hr : r < h
    · have hrow : (List.replicate h (List.replicate sw false)).getD r []
          = List.replicate sw false := by
        rw [List.getD_eq_getElem _ _ (by rw [List.length_replicate]; exact hr),
          List.getElem_replicate]
      rw [hrow]
      by_cases hc2 : c < sw
      · rw [List.getD_eq_getElem _ _ (by rw [List.length_replicate]; exact hc2),
          List.getElem_replicate]
      · exact List.getD_eq_default _ _ (by rw [List.length_replicate]; omega)
    · have hrow : (List.replicate h (List.replicate sw false)).getD r [] = [] :=
        List.getD_eq_default _ _ (by rw [List.length_replicate]; omega)
      rw [hrow]
      rfl

/-- C7: with glyph render width ≤ 0 every character yields an all-false
bitmap whose width is 0 in dynamic mode or `charSpacing` in fixed mode,
with matching all-zero bytes; with positive width, every whitespace-only
character other than space yields an all-false bitmap of width 0
(dynamic) or `width + charSpacing` (fixed).  Both short-circuits hold
for every rasterizer oracle, i.e. rasterization is skipped. -/
theorem generateChars_short_circuit (options : FontGeneratorOptions)
    (render : Char → List (List Bool)) (characters : List Char) :
    (options.width ≤ 0 →
      generateChars options render characters
        = characters.map (fun c =>
            ⟨c, c.toNat,
             List.replicate options.height
               (List.replicate (if options.dynamicWidth then 0 else options.charSpacing)
                 false),
             List.replicate (if options.dynamicWidth then 0 else options.charSpacing) 0⟩))
    ∧ (0 < options.width →
       ∀ i, i < characters.length →
         jsIsWhitespace (characters.getD i ' ') = true → characters.getD i ' ' ≠ ' ' →
         (generateChars options render characters).getD i default
           = ⟨characters.getD i ' ', (characters.getD i ' ').toNat,
              List.replicate options.height
                (List.replicate
                  (if options.dynamicWidth then 0
                   else (options.width + (options.charSpacing : Int)).toNat) false),
              List.replicate
                (if options.dynamicWidth then 0
                 else (options.width + (options.charSpacing : Int)).toNat) 0⟩) := by
  constructor
  · intro hw
    unfold generateChars
    rw [if_pos hw]
    by_cases hdyn : options.dynamicWidth
    · simp [hdyn]
    · by_cases hs0 : options.charSpacing = 0
      · simp [hdyn, hs0]
      · rw [if_neg]
        · simp [hdyn]
        · simp [hdyn]
          omega
  · intro hw i hi hws hnsp
    unfold generateChars
    rw [if_neg (by omega)]
    rw [List.getD_eq_getElem _ _ (by rw [List.length_map]; omega), List.getElem_map]
    rw [List.getD_eq_getElem _ _ hi] at hws hnsp ⊢
    rw [if_pos ⟨hws, hnsp⟩]
    by_cases hdyn : options.dynamicWidth
    · simp [hdyn]
    · simp [hdyn]

/-- Witness for the width ≤ 0 short-circuit at spacing 1, fixed mode. -/
theorem generateChars_short_circuit_witness :
    generateChars ⟨0, 8, 1, false⟩ (fun _ => [[true]]) ['A']
      = ['A'].map (fun c =>
          ⟨c, c.toNat,
           List.replicate 8
             (List.replicate
               (if (⟨0, 8, 1, false⟩ : FontGeneratorOptions).dynamicWidth then 0
                else (⟨0, 8, 1, false⟩ : FontGeneratorOptions).charSpacing) false),
           List.replicate
             (if (⟨0, 8, 1, false⟩ : FontGeneratorOptions).dynamicWidth then 0
              else (⟨0, 8, 1, false⟩ : FontGeneratorOptions).charSpacing) 0⟩) :=
  (generateChars_short_circuit ⟨0, 8, 1, false⟩ (fun _ => [[true]]) ['A']).1 (by decide)

/-- C8: when trimming to dynamic width, the space character always
receives an all-false bitmap of width exactly `max(1, floor(w/2))` with
matching zero bytes, regardless of rendered content: in `generateChars`
with `w` the (positive) glyph render width and any rasterizer oracle,
and in `convertCharToDynamic` with `w` the original fixed width. -/
theorem space_dynamic_width (options : FontGeneratorOptions)
    (render : Char → List (List Bool)) (characters : List Char) (g : GeneratedChar)
    (w : Nat) :
    (options.dynamicWidth = true → 0 < options.width → 0 < options.height →
      ∀ i, i < characters.length → characters.getD i ' ' = ' ' →
        (generateChars options render characters).getD i default
          = ⟨' ', (' ' : Char).toNat,
             List.replicate options.height
               (List.replicate (max 1 (options.width.toNat / 2)) false),
             List.replicate (max 1 (options.width.toNat / 2)) 0⟩)
    ∧ (g.char = ' ' →
        (convertCharToDynamic g w).1
          = ⟨g.char, g.ascii,
             List.replicate g.bitmap.length (List.replicate (max 1 (w / 2)) false),
             List.replicate (max 1 (w / 2)) 0⟩) := by
  constructor
  · intro hdyn hw hh i hi hsp
    unfold generateChars
    rw [if_neg (by omega)]
    rw [List.getD_eq_getElem _ _ (by rw [List.length_map]; omega), List.getElem_map]
    rw [List.getD_eq_getElem _ _ hi] at hsp
    rw [hsp]
    rw [if_neg (by simp)]
    have hsw : (if (options.width / 2 : Int) = 0 then (1 : Int) else options.width / 2).toNat
        = max 1 (options.width.toNat / 2) := by
      have hdiv : (options.width / 2 : Int) = ((options.width.toNat / 2 : Nat) : Int) := by
        omega
      rw [hdiv]
      by_cases hz : options.width.toNat / 2 = 0
      · rw [hz]
        simp
      · rw [if_neg (by omega)]
        simp
        omega
    simp only [hdyn, if_true, if_pos rfl]
    rw [hsw, bitmapToBytes_allfalse _ _ _ hh]
  · intro hsp
    simp only [convertCharToDynamic, if_pos hsp]

/-- Witness: a 4-pixel-wide dynamic render always maps the space to an
all-false 2-column glyph, even when the oracle renders solid pixels. -/
theorem space_dynamic_width_witness :
    (generateChars ⟨4, 8, 0, true⟩ (fun _ => List.replicate 8 (List.replicate 4 true))
        [' ']).getD 0 default
      = ⟨' ', (' ' : Char).toNat,
         List.replicate 8 (List.replicate (max 1 ((4 : Int).toNat / 2)) false),
         List.replicate (max 1 ((4 : Int).toNat / 2)) 0⟩ :=
  (space_dynamic_width ⟨4, 8, 0, true⟩
      (fun _ => List.replicate 8 (List.replicate 4 true)) [' '] default 0).1
    rfl (by decide) (by decide) 0 (by decide) (by decide)

/-! The GlyphRecord invariant (C2): one byte per column and no set bit at
or above the row count. -/

/-- The record invariant: `bytes.length == bitmap[0].length` (0 when the
bitmap has no rows) and every byte is a nonnegative number below
`2 ^ height`, i.e. has no set bit at positions ≥ height. -/
def glyphInv (height : Nat) (g : GeneratedChar) : Prop :=
  g.bytes.length = (g.bitmap.headD []).length
    ∧ ∀ b ∈ g.bytes, 0 ≤ b ∧ b < 2 ^ height

theorem bitmapToBytes_length (bm : List (List Bool)) (h : Nat) :
    (bitmapToBytes bm h).length = (bm.headD []).length := by
  unfold bitmapToBytes
  simp

theorem bitmapToBytes_mem_bound (bm : List (List Bool)) (h : Nat) (b : Int)
    (hb : b ∈ bitmapToBytes bm h) : 0 ≤ b ∧ b < 2 ^ h := by
  unfold bitmapToBytes at hb
  rw [List.mem_map] at hb
  obtain ⟨c, _, hc⟩ := hb
  constructor
  · rw [← hc]
    exact Int.natCast_nonneg _
  · rw [← hc]
    exact_mod_cast colByte_lt bm h c

theorem glyphInv_of_bitmapToBytes (c : Char) (n : Nat) (bm : List (List Bool)) (h : Nat) :
    glyphInv h ⟨c, n, bm, bitmapToBytes bm h⟩ :=
  ⟨bitmapToBytes_length bm h, fun b hb => bitmapToBytes_mem_bound bm h b hb⟩

theorem glyphInv_replicate (c : Char) (n : Nat) (hgt rows tw : Nat) (hh : 0 < rows) :
    glyphInv hgt
      ⟨c, n, List.replicate rows (List.replicate tw false), List.replicate tw 0⟩ := by
  constructor
  · rw [List.length_replicate]
    cases rows with
    | zero => omega
    | succ k =>
        rw [List.replicate_succ]
        simp
  · intro b hb
    rw [List.eq_of_mem_replicate hb]
    exact ⟨le_refl 0, by positivity⟩

/-- C2 helper: every record out of `generateChars` satisfies the
invariant (any rasterizer oracle, any options with at least one row). -/
theorem generateChars_inv (options : FontGeneratorOptions)
    (render : Char → List (List Bool)) (characters : List Char)
    (hh : 0 < options.height) :
    ∀ g ∈ generateChars options render characters, glyphInv options.height g := by
  intro g hg
  unfold generateChars at hg
  by_cases hw : options.width ≤ 0
  · rw [if_pos hw] at hg
    by_cases htw :
        (if options.dynamicWidth then (0 : Int) else (options.charSpacing : Int)) ≤ 0
    · rw [if_pos htw] at hg
      rw [List.mem_map] at hg
      obtain ⟨c, _, hc⟩ := hg
      rw [← hc]
      exact glyphInv_replicate c c.toNat options.height options.height 0 hh
    · rw [if_neg htw] at hg
      rw [List.mem_map] at hg
      obtain ⟨c, _, hc⟩ := hg
      rw [← hc]
      exact glyphInv_replicate c c.toNat options.height options.height _ hh
  · rw [if_neg hw] at hg
    rw [List.mem_map] at hg
    obtain ⟨c, _, hc⟩ := hg
    rw [← hc]
    by_cases hws : jsIsWhitespace c = true ∧ c ≠ ' '
    · rw [if_pos hws]
      exact glyphInv_replicate c c.toNat options.height options.height _ hh
    · rw [if_neg hws]
      exact glyphInv_of_bitmapToBytes c c.toNat _ options.height

theorem bytesToBitmap_ok_head_length (bytes : List Int) (w : Int) (h : Nat)
    (h1 : 1 ≤ h) (bm : List (List Bool))
    (hok : bytesToBitmap bytes w h = .ok bm) :
    (bm.headD []).length = w.toNat := by
  unfold bytesToBitmap at hok
  by_cases hcond : 0 < h ∧ w < 0
  · rw [if_pos hcond] at hok
    simp at hok
  · rw [if_neg hcond] at hok
    by_cases h8 : h > 8
    · rw [if_pos h8] at hok
      simp at hok
    · rw [if_neg h8] at hok
      simp only [Except.ok.injEq] at hok
      rw [← hok]
      cases h with
      | zero => omega
      | succ k =>
          rw [List.range_succ_eq_map]
          simp

/-- C2 helper: records out of the dynamic import loop satisfy the
invariant when the data bytes are in range and widths/offsets are
nonnegative. -/
theorem dynamicGlyphs_inv (dataBytes : List Int) (h : Nat) (h1 : 1 ≤ h)
    (hdata : ∀ b ∈ dataBytes, 0 ≤ b ∧ b < 2 ^ h) :
    ∀ (cs : List Char) (ws offs : List Int) (gs : List GeneratedChar),
      (∀ w ∈ ws, 0 ≤ w) → (∀ off ∈ offs, 0 ≤ off) →
      dynamicGlyphs dataBytes h cs ws offs = .ok gs →
      ∀ g ∈ gs, glyphInv h g := by
  intro cs
  induction cs with
  | nil =>
      intro ws offs gs _ _ hok g hg
      simp only [dynamicGlyphs, Except.ok.injEq] at hok
      rw [← hok] at hg
      simp at hg
  | cons c ct ih =>
      intro ws offs gs hws hoffs hok g hg
      match ws, offs with
      | [], _ => simp [dynamicGlyphs] at hok
      | w :: wt, [] => simp [dynamicGlyphs] at hok
      | w :: wt, off :: offt =>
          simp only [dynamicGlyphs] at hok
          by_cases hoob : off + w > (dataBytes.length : Int)
          · rw [if_pos hoob] at hok
            simp at hok
          · rw [if_neg hoob] at hok
            cases hbm : bytesToBitmap (jsSlice dataBytes off (off + w)) w h with
            | error e =>
                rw [hbm] at hok
                simp at hok
            | ok bitmap =>
                rw [hbm] at hok
                cases hrest : dynamicGlyphs dataBytes h ct wt offt with
                | error e =>
                    rw [hrest] at hok
                    simp at hok
                | ok rest =>
                    rw [hrest] at hok
                    simp only [Except.ok.injEq] at hok
                    rw [← hok] at hg
                    rcases List.mem_cons.mp hg with hgeq | hgmem
                    · subst hgeq
                      have hw0 : (0 : Int) ≤ w := hws w (by simp)
                      have hoff0 : (0 : Int) ≤ off := hoffs off (by simp)
                      constructor
                      · rw [bytesToBitmap_ok_head_length _ _ _ h1 _ hbm]
                        rw [jsSlice_length_of_le _ _ _ hoff0 (by omega) (by omega)]
                        omega
                      · intro b hb
                        exact hdata b (mem_of_mem_jsSlice hb)
                    · exact ih wt offt rest (fun x hx => hws x (by simp [hx]))
                        (fun x hx => hoffs x (by simp [hx])) hrest g hgmem

/-- C2 helper: records out of the fixed import loop satisfy the
invariant when the data bytes are in range. -/
theorem fixedGlyphs_inv (dataBytes : List Int) (W : Int) (h : Nat)
    (h1 : 1 ≤ h) (hW : 0 < W)
    (hdata : ∀ b ∈ dataBytes, 0 ≤ b ∧ b < 2 ^ h) :
    ∀ (cs : List Char) (i : Nat) (gs : List GeneratedChar),
      ((i : Int) + cs.length) * W ≤ (dataBytes.length : Int) →
      fixedGlyphs dataBytes W h cs i = .ok gs →
      ∀ g ∈ gs, glyphInv h g := by
  intro cs
  induction cs with
  | nil =>
      intro i gs _ hok g hg
      simp only [fixedGlyphs, Except.ok.injEq] at hok
      rw [← hok] at hg
      simp at hg
  | cons c ct ih =>
      intro i gs hbound hok g hg
      simp only [fixedGlyphs] at hok
      cases hbm : bytesToBitmap
          (jsSlice dataBytes ((i : Int) * W) ((i : Int) * W + W)) W h with
      | error e =>
          rw [hbm] at hok
          simp at hok
      | ok bitmap =>
          rw [hbm] at hok
          cases hrest : fixedGlyphs dataBytes W h ct (i + 1) with
          | error e =>
              rw [hrest] at hok
              simp at hok
          | ok rest =>
              rw [hrest] at hok
              simp only [Except.ok.injEq] at hok
              rw [← hok] at hg
              have hcons : ((c :: ct).length : Int) = (ct.length : Int) + 1 := by
                push_cast [List.length_cons]
                ring
              have hnext : (i : Int) * W + W ≤ (dataBytes.length : Int) := by
                have hle : ((i : Int) + 1) ≤ (i : Int) + ((c :: ct).length : Int) := by
                  have h0 : (0 : Int) ≤ (ct.length : Int) := Int.natCast_nonneg _
                  omega
                have hmul := Int.mul_le_mul_of_nonneg_right hle (le_of_lt hW)
                have hexp : ((i : Int) + 1) * W = (i : Int) * W + W := by ring
                rw [hexp] at hmul
                exact le_trans hmul hbound
              rcases List.mem_cons.mp hg with hgeq | hgmem
              · subst hgeq
                constructor
                · rw [bytesToBitmap_ok_head_length _ _ _ h1 _ hbm]
                  rw [jsSlice_length_of_le _ _ _ (by positivity) (by omega) hnext]
                  omega
                · intro b hb
                  exact hdata b (mem_of_mem_jsSlice hb)
              · apply ih (i + 1) rest _ hrest g hgmem
                have hc : ((i + 1 : Nat) : Int) + (ct.length : Int)
                    = (i : Int) + ((c :: ct).length : Int) := by
                  push_cast [List.length_cons]
                  ring
                rw [hc]
                exact hbound

/-- C2 helper: every record out of `parseImportedData` satisfies the
invariant when every parsed data byte is in `[0, 2^height)` and all
parsed widths and offsets are nonnegative. -/
theorem parseImportedData_inv (o : ImportOptions) (pd : ParsedFontData)
    (hdata : ∀ b ∈ parseArrayString o.rawData, 0 ≤ b ∧ b < 2 ^ o.charHeight.toNat)
    (hws : ∀ x ∈ parseArrayString o.rawWidths, 0 ≤ x)
    (hoffs : ∀ x ∈ parseArrayString o.rawOffsets, 0 ≤ x)
    (hok : parseImportedData o = .ok pd) :
    ∀ g ∈ pd.fontData, glyphInv o.charHeight.toNat g := by
  unfold parseImportedData at hok
  by_cases hh : o.charHeight ≤ 0 ∨ o.charHeight > 8
  · rw [if_pos hh] at hok
    simp at hok
  · rw [if_neg hh] at hok
    push_neg at hh
    by_cases hdyn : o.isDynamic = true
    · rw [hdyn] at hok
      simp only [if_true] at hok
      by_cases hg1 : (parseArrayString o.rawWidths).length > 0
          ∧ ((uniqueFirst o.characterSet.data).length ≠ (parseArrayString o.rawWidths).length
            ∨ (uniqueFirst o.characterSet.data).length ≠ (parseArrayString o.rawOffsets).length)
      · rw [if_pos hg1] at hok
        simp at hok
      · rw [if_neg hg1] at hok
        by_cases hg2 : (parseArrayString o.rawWidths).length = 0
            ∧ (uniqueFirst o.characterSet.data).length > 0
        · rw [if_pos hg2] at hok
          simp at hok
        · rw [if_neg hg2] at hok
          cases hglyphs : dynamicGlyphs (parseArrayString o.rawData) o.charHeight.toNat
              (uniqueFirst o.characterSet.data) (parseArrayString o.rawWidths)
              (parseArrayString o.rawOffsets) with
          | error e =>
              rw [hglyphs] at hok
              simp at hok
          | ok gs =>
              rw [hglyphs] at hok
              simp only [Except.ok.injEq] at hok
              rw [← hok]
              exact dynamicGlyphs_inv (parseArrayString o.rawData) o.charHeight.toNat
                (by omega) hdata _ _ _ gs hws hoffs hglyphs
    · rw [Bool.not_eq_true] at hdyn
      rw [hdyn] at hok
      simp only [Bool.false_eq_true, if_false] at hok
      by_cases hcw : o.charWidth ≤ 0
      · rw [if_pos hcw] at hok
        simp at hok
      · rw [if_neg hcw] at hok
        by_cases hg1 : (parseArrayString o.rawData).length = 0
            ∧ (uniqueFirst o.characterSet.data).length > 0
        · rw [if_pos hg1] at hok
          simp at hok
        · rw [if_neg hg1] at hok
          by_cases hg2 : ((parseArrayString o.rawData).length : Int)
              ≠ ((uniqueFirst o.characterSet.data).length : Int) * o.charWidth
              ∧ (uniqueFirst o.characterSet.data).length > 0
          · rw [if_pos hg2] at hok
            simp at hok
          · rw [if_neg hg2] at hok
            cases hglyphs : fixedGlyphs (parseArrayString o.rawData) o.charWidth
                o.charHeight.toNat (uniqueFirst o.characterSet.data) 0 with
            | error e =>
                rw [hglyphs] at hok
                simp at hok
            | ok gs =>
                rw [hglyphs] at hok
                simp only [Except.ok.injEq] at hok
                rw [← hok]
                apply fixedGlyphs_inv (parseArrayString o.rawData) o.charWidth
                  o.charHeight.toNat (by omega) (by omega) hdata
                  (uniqueFirst o.characterSet.data) 0 gs _ hglyphs
                push_neg at hg2
                by_cases hn0 : (uniqueFirst o.characterSet.data).length > 0
                · have heq : ((parseArrayString o.rawData).length : Int)
                      = ((uniqueFirst o.characterSet.data).length : Int) * o.charWidth := by
                    by_contra hne
                    exact absurd (hg2 hne) (by omega)
                  simp only [Nat.cast_zero, zero_add]
                  omega
                · have hn : (uniqueFirst o.characterSet.data).length = 0 := by omega
                  rw [hn]
                  simp only [Nat.cast_zero, zero_add, zero_mul]
                  positivity

/-- C2 helper: `convertCharToDynamic` preserves the invariant for glyphs
with at least one row. -/
theorem convertCharToDynamic_inv (g : GeneratedChar) (w h : Nat)
    (hh : 0 < g.bitmap.length) (hinv : glyphInv h g) :
    glyphInv h (convertCharToDynamic g w).1 := by
  by_cases hsp : g.char = ' '
  · simp only [convertCharToDynamic, if_pos hsp]
    exact glyphInv_replicate g.char g.ascii h g.bitmap.length _ hh
  · rcases hscan : bitmapScan g.bitmap with ⟨mn, mx⟩
    cases mx with
    | none =>
        simp only [convertCharToDynamic, if_neg hsp, hscan]
        constructor
        · have hhead : (List.replicate g.bitmap.length ([] : List Bool)).headD [] = [] := by
            cases hb : g.bitmap.length with
            | zero => rfl
            | succ k =>
                rw [List.replicate_succ]
                rfl
          rw [hhead]
          rfl
        · intro b hb
          simp at hb
    | some m =>
        simp only [convertCharToDynamic, if_neg hsp, hscan]
        constructor
        · cases hbm : g.bitmap with
          | nil =>
              rw [hbm] at hh
              simp at hh
          | cons r0 t =>
              simp only [List.map_cons, List.headD_cons]
              apply jsSlice_length_eq
              have hl := hinv.1
              rw [hbm] at hl
              simpa using hl
        · intro b hb
          exact hinv.2 b (mem_of_mem_jsSlice hb)

/-- C2 helper: `convertCharToFixed` preserves the invariant for glyphs
with at least one row. -/
theorem convertCharToFixed_inv (g : GeneratedChar) (w h : Nat)
    (hh : 0 < g.bitmap.length) (hinv : glyphInv h g) :
    glyphInv h (convertCharToFixed g w) := by
  simp only [convertCharToFixed]
  by_cases h1 : g.bytes.length = w
  · rw [if_pos h1]
    exact hinv
  · rw [if_neg h1]
    by_cases h2 : g.bytes.length > w
    · rw [if_pos h2]
      constructor
      · cases hbm : g.bitmap with
        | nil =>
            rw [hbm] at hh
            simp at hh
        | cons r0 t =>
            simp only [List.map_cons, List.headD_cons]
            apply jsSlice_length_eq
            have hl := hinv.1
            rw [hbm] at hl
            simpa using hl
      · intro b hb
        exact hinv.2 b (mem_of_mem_jsSlice hb)
    · rw [if_neg h2]
      constructor
      · cases hbm : g.bitmap with
        | nil =>
            rw [hbm] at hh
            simp at hh
        | cons r0 t =>
            simp only [List.map_cons, List.headD_cons, List.length_append,
              List.length_replicate]
            have hl := hinv.1
            rw [hbm] at hl
            simp only [List.headD_cons] at hl
            omega
      · intro b hb
        rcases List.mem_append.mp hb with hmem | hmem
        · exact hinv.2 b hmem
        · rw [List.eq_of_mem_replicate hmem]
          exact ⟨le_refl 0, by positivity⟩

/-- C2 (amended): every GlyphRecord produced by the core operations has
one byte per bitmap column and no byte with a set bit at positions
≥ height: unconditionally for `generateChars` (any rasterizer) and for
the vertical-realignment re-encode; for the two format converters
provided the input records satisfy it; and for `parseImportedData`
provided every parsed data byte lies in `[0, 2^height)` and the parsed
widths and offsets are nonnegative. -/
theorem glyph_record_invariant :
    (∀ (options : FontGeneratorOptions) (render : Char → List (List Bool))
        (characters : List Char), 0 < options.height →
        ∀ g ∈ generateChars options render characters, glyphInv options.height g)
    ∧ (∀ (o : ImportOptions) (pd : ParsedFontData),
        (∀ b ∈ parseArrayString o.rawData, 0 ≤ b ∧ b < 2 ^ o.charHeight.toNat) →
        (∀ x ∈ parseArrayString o.rawWidths, 0 ≤ x) →
        (∀ x ∈ parseArrayString o.rawOffsets, 0 ≤ x) →
        parseImportedData o = .ok pd →
        ∀ g ∈ pd.fontData, glyphInv o.charHeight.toNat g)
    ∧ (∀ (fontData : List GeneratedChar) (w h : Nat),
        (∀ g ∈ fontData, 0 < g.bitmap.length ∧ glyphInv h g) →
        ∀ g2 ∈ (convertToDynamic fontData w).1, glyphInv h g2)
    ∧ (∀ (fontData : List GeneratedChar) (w h : Nat),
        (∀ g ∈ fontData, 0 < g.bitmap.length ∧ glyphInv h g) →
        ∀ g2 ∈ convertToFixed fontData w, glyphInv h g2)
    ∧ (∀ (c : Char) (n h : Nat) (bm : List (List Bool)) (d : AlignDir),
        glyphInv h ⟨c, n, alignBitmap bm d, bitmapToBytes (alignBitmap bm d) h⟩) := by
  refine ⟨generateChars_inv, parseImportedData_inv, ?_, ?_, ?_⟩
  · intro fontData w h hin g2 hg2
    rw [convertToDynamic_fst, List.mem_map] at hg2
    obtain ⟨g, hg, hgeq⟩ := hg2
    rw [← hgeq]
    exact convertCharToDynamic_inv g w h (hin g hg).1 (hin g hg).2
  · intro fontData w h hin g2 hg2
    unfold convertToFixed at hg2
    rw [List.mem_map] at hg2
    obtain ⟨g, hg, hgeq⟩ := hg2
    rw [← hgeq]
    exact convertCharToFixed_inv g w h (hin g hg).1 (hin g hg).2
  · intro c n h bm d
    exact glyphInv_of_bitmapToBytes c n _ h

/-- Import form carrying the data byte 256 at height 8. -/
def c2CounterOptions : ImportOptions :=
  ⟨"\x7b256\x7d", "\x7b1\x7d", "\x7b0\x7d", "A", 8, 0, true⟩

/-- C2 counterexample: importing the data byte 256 at height 8 succeeds
and produces a record whose byte is 256, which has its bit 8 set — a bit
position ≥ height — so the invariant fails as stated on the output of
`parseImportedData`. -/
theorem glyph_record_invariant_counterexample :
    ¬ glyphInv 8
      (((parseImportedData c2CounterOptions).toOption.getD default).fontData.getD 0
        default) := by
  unfold glyphInv
  decide

/-- Witness: the invariant at height 8 for a concrete generated record. -/
theorem glyph_record_invariant_witness :
    glyphInv 8
      ((generateChars ⟨2, 8, 1, false⟩ (fun _ => [[true, false]]) ['A']).getD 0 default) :=
  glyph_record_invariant.1 ⟨2, 8, 1, false⟩ (fun _ => [[true, false]]) ['A'] (by decide)
    _ (by decide)

end DotMatrix
